import Mathlib

/-!
# nfs-client-multiple: mount lifecycle cache

A shallow embedding of `pkg/provision` (const.go, mount.go, manager.go,
provisioner.go).  Go strings are Lean strings; `*MountHandler` pointers are
indices into an explicit heap; the mounter and the `os` calls are scripted:
every result such a call can give is an argument of the operation that makes
the call, and the calls made are recorded in a trace.
-/

namespace NfsProvision

/-! ## Go library: `path/filepath` on Unix -/

/-- The Unix path separator, `filepath.Separator`. -/
def Separator : Char := '/'

/-- Go's `os.IsPathSeparator` on Unix. -/
def IsPathSeparator (c : Char) : Bool := c == Separator

/-- The output buffer of `filepath.Clean`: `buf[0:w]` is what has been
written; bytes at `w` and beyond are stale. -/
structure lazybuf where
  buf : List Char
  w : Nat
deriving Repr, DecidableEq

namespace lazybuf

/-- Go's `lazybuf.index`. -/
def index (b : lazybuf) (i : Nat) : Char := b.buf.getD i ' '

/-- Go's `lazybuf.append`: write `c` at `w` and advance. -/
def append (b : lazybuf) (c : Char) : lazybuf :=
  ⟨b.buf.take b.w ++ [c], b.w + 1⟩

/-- Go's `lazybuf.string`. -/
def string (b : lazybuf) : List Char := b.buf.take b.w

/-- Append every byte of `cs` in order. -/
def appendAll (b : lazybuf) (cs : List Char) : lazybuf := cs.foldl append b

end lazybuf

/-- The inner loop of the `..` case of `Clean`, entered after `out.w--`:
`for out.w > dotdot && !os.IsPathSeparator(out.index(out.w)) { out.w-- }`.
The argument is the current `out.w`; the result is the final one. -/
def backtrack (out : lazybuf) (dotdot : Nat) : Nat → Nat
  | 0 => 0
  | w + 1 =>
    if w + 1 > dotdot && !IsPathSeparator (out.index (w + 1)) then backtrack out dotdot w
    else w + 1

/-- One iteration of the main loop `for r < n` of `filepath.Clean`, reading
at `c :: rest` (the unread suffix `path[r:]`): what is left to read, the
buffer and `dotdot` after the iteration. -/
def cleanStep (rooted : Bool) (c : Char) (rest : List Char) (out : lazybuf) (dotdot : Nat) :
    List Char × lazybuf × Nat :=
  if IsPathSeparator c then
    -- empty path element
    (rest, out, dotdot)
  else if c == '.' && (rest.isEmpty || IsPathSeparator (rest.headD ' ')) then
    -- . element
    (rest, out, dotdot)
  else if c == '.' && rest.headD ' ' == '.' && !rest.isEmpty &&
      ((rest.drop 1).isEmpty || IsPathSeparator ((rest.drop 1).headD ' ')) then
    -- .. element: remove to last separator
    if out.w > dotdot then
      -- can backtrack
      (rest.drop 1, ⟨out.buf, backtrack out dotdot (out.w - 1)⟩, dotdot)
    else if !rooted then
      -- cannot backtrack, but not rooted, so append .. element
      let out1 := if out.w > 0 then out.append Separator else out
      let out2 := (out1.append '.').append '.'
      (rest.drop 1, out2, out2.w)
    else
      (rest.drop 1, out, dotdot)
  else
    -- real path element: add slash if needed, then copy the element
    let out1 :=
      if (rooted && out.w != 1) || (!rooted && out.w != 0) then out.append Separator else out
    let elem := (c :: rest).takeWhile (fun x => !IsPathSeparator x)
    ((c :: rest).dropWhile (fun x => !IsPathSeparator x), out1.appendAll elem, dotdot)

/-- The main loop `for r < n` of `filepath.Clean`.  Every iteration reads at
least one byte, so a fuel equal to the length of the unread suffix is enough. -/
def cleanLoop (rooted : Bool) : Nat → List Char → lazybuf → Nat → lazybuf
  | 0, _, out, _ => out
  | _ + 1, [], out, _ => out
  | fuel + 1, c :: rest, out, dotdot =>
    cleanLoop rooted fuel (cleanStep rooted c rest out dotdot).1
      (cleanStep rooted c rest out dotdot).2.1 (cleanStep rooted c rest out dotdot).2.2

/-- The body of `filepath.Clean` on a non-empty path up to the end of its
main loop: the buffer the loop leaves. -/
def cleanBuf (path : List Char) : lazybuf :=
  let rooted := IsPathSeparator (path.headD ' ')
  let out0 : lazybuf := ⟨[], 0⟩
  let out1 := if rooted then out0.append Separator else out0
  let r := if rooted then 1 else 0
  cleanLoop rooted path.length (path.drop r) out1 r

/-- Go's `filepath.Clean` on Unix (no volume name, `FromSlash` is the identity). -/
def Clean (path : String) : String :=
  if path.data.isEmpty then "."
  else
    let out := cleanBuf path.data
    -- Turn empty string into "."
    let out := if out.w == 0 then out.append '.' else out
    String.mk out.string

/-- Go's `strings.Join`. -/
def stringsJoin : List String → String → String
  | [], _ => ""
  | [a], _ => a
  | a :: b :: rest, sep => a ++ sep ++ stringsJoin (b :: rest) sep

/-- Go's `filepath.Join` on Unix: the elements from the first non-empty one
on are joined with the separator and cleaned; with no non-empty element the
result is empty. -/
def Join : List String → String
  | [] => ""
  | e :: rest =>
    if e.data.isEmpty then Join rest
    else Clean (stringsJoin (e :: rest) (String.singleton Separator))

/-- The scan `for i >= 0 && !os.IsPathSeparator(path[i]) { i-- }` shared by
`Dir` and `Base`; the argument and the result are `i + 1`. -/
def lastSeparator (path : List Char) : Nat → Nat
  | 0 => 0
  | i + 1 => if !IsPathSeparator (path.getD i ' ') then lastSeparator path i else i + 1

/-- Go's `filepath.Dir` on Unix. -/
def Dir (path : String) : String :=
  let i := lastSeparator path.data path.data.length
  Clean (String.mk (path.data.take i))

/-- The loop of `Base` that strips trailing slashes; the argument is `len(path)`. -/
def stripTrailing (path : List Char) : Nat → Nat
  | 0 => 0
  | n + 1 => if IsPathSeparator (path.getD n ' ') then stripTrailing path n else n + 1

/-- Go's `filepath.Base` on Unix. -/
def Base (path : String) : String :=
  if path.data.isEmpty then "."
  else
    let p := path.data.take (stripTrailing path.data path.data.length)
    let i := lastSeparator p p.length
    let p := if i > 0 then p.drop i else p
    if p.isEmpty then String.singleton Separator else String.mk p

/-! ## Go library: strings, errors, uuid -/

/-- Go's `len` on a string.  The program only ever compares it with zero,
where the count of bytes and the count of characters agree. -/
def len (s : String) : Nat := s.length

/-- Go's `unicode.ToLower` as far as an ASCII comparison can see it: ASCII
capitals are lowered; U+0130 and U+212A are the only runes outside ASCII that
Go lowers into ASCII (to `i` and `k`); every other rune outside ASCII is
lowered by Go to a rune outside ASCII and is left in place here. -/
def toLowerRune (c : Char) : Char :=
  if c = Char.ofNat 0x130 then 'i'
  else if c = Char.ofNat 0x212A then 'k'
  else c.toLower

/-- Go's `strings.ToLower`. -/
def ToLower (s : String) : String := String.mk (s.data.map toLowerRune)

/-- The errors of the package: the `Err...` variables of const.go, the
`fmt.Errorf` of `CheckClassNfsReadOnlyFormat`, the `errors.New` of
`Provision`, and the errors that come out of `os` and the mounter. -/
inductive Error where
  | ErrArgsMountBaseNotDir
  | ErrArgsProvisionerEmpty
  | ErrParametersMapNil
  | ErrParametersMapServerEmpty
  | ErrParametersMapExportPathEmpty
  | ErrNotMountedYet
  | ErrVolumeNameEmpty
  | ErrClaimSelectorNotSupported
  | badReadOnly (ro : String)
  | os (notExist : Bool) (msg : String)
  | new (msg : String)
deriving DecidableEq, Repr

/-- Go's `error.Error()`. -/
def Error.text : Error → String
  | .ErrArgsMountBaseNotDir => "mount base not dir"
  | .ErrArgsProvisionerEmpty => "provisioner empty"
  | .ErrParametersMapNil => "parameters map nil"
  | .ErrParametersMapServerEmpty => "server empty"
  | .ErrParametersMapExportPathEmpty => "exportPath empty"
  | .ErrNotMountedYet => "not mounted yet"
  | .ErrVolumeNameEmpty => "volume name empty"
  | .ErrClaimSelectorNotSupported => "claim Selector is not supported"
  | .badReadOnly ro => "bad value " ++ ro ++ " for readOnly boolean"
  | .os _ msg => msg
  | .new msg => msg

/-- Go's `os.IsNotExist`. -/
def IsNotExist : Option Error → Bool
  | some (.os notExist _) => notExist
  | _ => false

/-- One hexadecimal digit. -/
def hexDigit (n : Nat) : Char := "0123456789abcdef".data.getD (n % 16) '0'

/-- The lowest `k` hexadecimal digits of `r`, most significant first. -/
def hexField (r : Nat) : Nat → List Char
  | 0 => []
  | k + 1 => hexField (r / 16) k ++ [hexDigit r]

/-- The library call `string(uuid.NewUUID())`: the canonical 36-character
rendering of a 128-bit value, which stands for the entropy of the call. -/
def NewUUID (r : Nat) : String :=
  String.mk (hexField (r / 16 ^ 24) 8 ++ '-' :: hexField (r / 16 ^ 20) 4 ++ '-' ::
    hexField (r / 16 ^ 16) 4 ++ '-' :: hexField (r / 16 ^ 12) 4 ++ '-' :: hexField r 12)

/-! ## const.go -/

def LabelKeyNfsServer : String := "server"
def LabelKeyNfsExportPath : String := "exportPath"
def LabelKeyNfsReadOnly : String := "readOnly"
def LabelKeyKubeStorageClass : String := "volume.beta.kubernetes.io/storage-class"

def MountStatusNew : Int := 0
def MountStatusMounted : Int := 1
def MountStatusUnmounted : Int := 2

/-- A Go `map[string]string`, which may be nil. -/
abbrev Params := Option (List (String × String))

/-- Go's `pm[key]` on a `map[string]string`: the zero value when the map is
nil or has no such key. -/
def Params.index (pm : Params) (key : String) : String :=
  match pm with
  | none => ""
  | some l => (l.lookup key).getD ""

def GetClassNfsServer (pm : Params) : String := pm.index LabelKeyNfsServer

def GetClassNfsExportPath (pm : Params) : String := pm.index LabelKeyNfsExportPath

def GetClassNfsReadOnly (pm : Params) : String := pm.index LabelKeyNfsReadOnly

def IsClassNfsReadOnly (pm : Params) : Bool :=
  let ro := GetClassNfsReadOnly pm
  decide (len ro > 0) && decide (ToLower ro = "true")

def CheckClassNfsReadOnlyFormat (pm : Params) : Option Error :=
  let ro := GetClassNfsReadOnly pm
  if len ro = 0 then none
  else if ToLower ro = "true" ∨ ToLower ro = "false" then none
  else some (.badReadOnly ro)

/-- The part of a `v1.PersistentVolumeClaim` the package reads. -/
structure PersistentVolumeClaim where
  Namespace : String
  Name : String
  Annotations : Params
  StorageClassName : Option String
  Selector : Option String
deriving DecidableEq, Repr

def GetPVCClass (pvc : PersistentVolumeClaim) : String :=
  let scName := pvc.Annotations.index LabelKeyKubeStorageClass
  match pvc.StorageClassName with
  | some n => if len scName = 0 then n else scName
  | none => scName

/-! ## mount.go -/

/-- The calls made on the mounter and on `os`, in the order they are made. -/
inductive Call where
  | IsLikelyNotMountPoint (dir : String)
  | MkdirAll (dir : String)
  | Mount (source target fstype : String) (options : List String)
  | Unmount (target : String)
  | Remove (dir : String)
  | UnmountPath (mountPath : String)
  | Mkdir (path : String)
  | Chmod (path : String)
  | Rename (oldPath newPath : String)
deriving DecidableEq, Repr

structure MountHandler where
  server : String
  exportPath : String
  status : Int
  mountPath : String
deriving DecidableEq, Repr

/-- Go's `NewMountHandler`; its error result is always nil. -/
def NewMountHandler (server exportPath : String) : MountHandler :=
  { server := server, exportPath := exportPath, status := MountStatusNew, mountPath := "" }

def makeNfsPathKey (server exportPath : String) : String := server ++ ":" ++ exportPath

def getMountPoint (mountBase mountDir : String) : String := Join [mountBase, mountDir]

namespace MountHandler

def GetKey (mh : MountHandler) : String := makeNfsPathKey mh.server mh.exportPath

def GetServer (mh : MountHandler) : String := mh.server

def GetExportPath (mh : MountHandler) : String := mh.exportPath

def GetMountPath (mh : MountHandler) : String := mh.mountPath

def GetStatus (mh : MountHandler) : Int := mh.status

def SetStatus (mh : MountHandler) (status : Int) : MountHandler := { mh with status := status }

end MountHandler

/-- What the outside world answers to the calls of one `MountHandler.Mount`:
the three `IsLikelyNotMountPoint` checks, `os.MkdirAll`, `mounter.Mount` and
`mounter.Unmount`.  An answer is read only if its call is made. -/
structure MountScript where
  notMnt1 : Bool
  err1 : Option Error
  mkdirAll : Option Error
  mount : Option Error
  notMnt2 : Bool
  err2 : Option Error
  unmount : Option Error
  notMnt3 : Bool
  err3 : Option Error
deriving DecidableEq, Repr

/-- What the outside world answers to the calls of one `MountHandler.Unmount`:
the result of `util.UnmountPath` and the `notMnt` of the check after it (the
error of that check is dropped by the code). -/
structure UnmountScript where
  unmountPath : Option Error
  notMnt : Bool
deriving DecidableEq, Repr

/-- Go's `<` on strings, which `sort.Strings` uses: the lexicographic order
of the bytes, which on UTF-8 text is that of the code points. -/
def stringLess : List Char → List Char → Bool
  | [], [] => false
  | [], _ :: _ => true
  | _ :: _, [] => false
  | a :: as, b :: bs =>
    if a.toNat < b.toNat then true
    else if b.toNat < a.toNat then false
    else stringLess as bs

/-- The library's `sets.String.Insert`, on the sorted list of the elements
of the set. -/
def insertOption (o : String) : List String → List String
  | [] => [o]
  | x :: xs =>
    if o = x then x :: xs
    else if stringLess o.data x.data then o :: x :: xs
    else x :: insertOption o xs

/-- The library call `util.JoinMountOptions`: the non-empty user options and
the system options are inserted into a set, which is returned sorted. -/
def JoinMountOptions (userOptions systemOptions : List String) : List String :=
  systemOptions.foldl (fun acc o => insertOption o acc)
    ((userOptions.filter (fun o => decide (len o > 0))).foldl (fun acc o => insertOption o acc) [])

namespace MountHandler

/-- Go's `MountHandler.AddVolume`; `mkdir` is the result of `os.Mkdir`. -/
def AddVolume (mh : MountHandler) (volName : String) (mkdir : Option Error) :
    String × Option Error × List Call :=
  if len mh.mountPath = 0 ∨ mh.GetStatus ≠ MountStatusMounted then
    ("", some .ErrNotMountedYet, [])
  else if len (Clean volName) = 0 then
    ("", some .ErrVolumeNameEmpty, [])
  else
    let path := Join [mh.mountPath, volName]
    match mkdir with
    | some e => ("", some e, [.Mkdir path])
    | none => (path, none, [.Mkdir path])

/-- Go's `MountHandler.Mount`; `mountDir` is `string(uuid.NewUUID())`. -/
def Mount (mh : MountHandler) (mountBase : String) (mountOptions : List String)
    (mountDir : String) (s : MountScript) : MountHandler × Option Error × List Call :=
  let dir := getMountPoint mountBase mountDir
  let t1 := [Call.IsLikelyNotMountPoint dir]
  if s.err1.isSome ∧ ¬ IsNotExist s.err1 then (mh, s.err1, t1)
  else if ¬ s.notMnt1 then (mh, none, t1)
  else
    match s.mkdirAll with
    | some e => (mh, some e, t1 ++ [.MkdirAll dir])
    | none =>
      let source := mh.server ++ ":" ++ mh.exportPath
      let t2 := t1 ++ [.MkdirAll dir, .Mount source dir "nfs" (JoinMountOptions mountOptions [])]
      match s.mount with
      | some err =>
        let t3 := t2 ++ [.IsLikelyNotMountPoint dir]
        if s.err2.isSome then (mh, some err, t3)
        else if ¬ s.notMnt2 then
          let t4 := t3 ++ [.Unmount dir]
          if s.unmount.isSome then (mh, some err, t4)
          else
            let t5 := t4 ++ [.IsLikelyNotMountPoint dir]
            if s.err3.isSome then (mh, some err, t5)
            else if ¬ s.notMnt3 then (mh, some err, t5)
            else (mh, some err, t5 ++ [.Remove dir])
        else (mh, some err, t3 ++ [.Remove dir])
      | none => ({ mh.SetStatus MountStatusMounted with mountPath := dir }, none, t2)

/-- Go's `MountHandler.Unmount`. -/
def Unmount (mh : MountHandler) (s : UnmountScript) : MountHandler × Option Error × List Call :=
  if len mh.mountPath = 0 ∨ mh.GetStatus ≠ MountStatusMounted then
    (mh, some .ErrNotMountedYet, [])
  else
    let mh1 := if s.notMnt then mh.SetStatus MountStatusUnmounted else mh
    (mh1, s.unmountPath, [.UnmountPath mh.mountPath, .IsLikelyNotMountPoint mh.mountPath])

end MountHandler

/-! ## manager.go -/

/-- A Go pointer `*MountHandler`: an index into the heap of handlers. -/
abbrev Ptr := Nat

/-- Go's `m[key]` on a map with pointer values: nil (`none`) when absent. -/
def mapGet {V : Type} (m : List (String × V)) (key : String) : Option V := m.lookup key

/-- Go's `delete(m, key)`. -/
def mapDelete {V : Type} (m : List (String × V)) (key : String) : List (String × V) :=
  m.filter (fun kv => kv.1 != key)

/-- Go's `m[key] = v`. -/
def mapSet {V : Type} (m : List (String × V)) (key : String) (v : V) : List (String × V) :=
  (key, v) :: mapDelete m key

/-- Go's `MountManager`, without its lock and its mounter.  `DefaultMountOpts`
is the package-level value that `GetByPath` passes to `Mount`; it is declared
outside the files at hand and is carried here. -/
structure MountManager where
  m : List (String × Ptr)
  provisioner : String
  mountBase : String
  DefaultMountOpts : List String

/-- The mutable world of the package: the heap of handlers (`next` is the
first pointer not yet allocated), the manager, the goroutines
`go mm.releaseHandler(mh)` that have been started and have not run yet, and
the calls made so far on the mounter and on `os`. -/
structure World where
  heap : Ptr → MountHandler
  next : Ptr
  mm : MountManager
  spawned : List Ptr
  trace : List Call

/-- The part of a `storagev1.StorageClass` the package reads. -/
structure StorageClass where
  Provisioner : String
  Parameters : Params
deriving DecidableEq, Repr

def nfsPathCheck (server exportPath : String) : Option Error :=
  if len server = 0 then some .ErrParametersMapServerEmpty
  else if len exportPath = 0 then some .ErrParametersMapExportPathEmpty
  else none

def parseNfsPath (pm : Params) : String × String × Option Error :=
  match pm with
  | none => ("", "", some .ErrParametersMapNil)
  | some _ =>
    let server := GetClassNfsServer pm
    let exportPath := GetClassNfsExportPath pm
    (server, exportPath, nfsPathCheck server exportPath)

def parsePathKey (pm : Params) : String × Option Error :=
  match parseNfsPath pm with
  | (_, _, some e) => ("", some e)
  | (server, exportPath, none) => (makeNfsPathKey server exportPath, none)

namespace World

def getCache (w : World) (key : String) : Option Ptr := mapGet w.mm.m key

/-- Go's `MountManager.GetByPath`.  On a miss the new handler is allocated at
`w.next` and mounted; `mountDir` and `s` are what that `Mount` call draws. -/
def GetByPath (w : World) (server exportPath : String) (mountDir : String) (s : MountScript) :
    World × Option Ptr × Option Error :=
  match nfsPathCheck server exportPath with
  | some e => (w, none, some e)
  | none =>
    match w.getCache (makeNfsPathKey server exportPath) with
    | some mh => (w, some mh, none)
    | none =>
      let r := (NewMountHandler server exportPath).Mount w.mm.mountBase w.mm.DefaultMountOpts
        mountDir s
      let w1 : World := { w with
        heap := Function.update w.heap w.next r.1, next := w.next + 1,
        trace := w.trace ++ r.2.2 }
      match r.2.1 with
      | some e => (w1, none, some e)
      | none => (w1, some w.next, none)

/-- Go's `MountManager.Get`. -/
def Get (w : World) (pm : Params) (mountDir : String) (s : MountScript) :
    World × Option Ptr × Option Error :=
  match parseNfsPath pm with
  | (_, _, some e) => (w, none, some e)
  | (server, exportPath, none) => w.GetByPath server exportPath mountDir s

/-- Go's `MountManager.Return`, run without interleaving: the second read of
the map under the write lock then sees what the first read saw. -/
def Return (w : World) (mh : Ptr) : World :=
  if (w.heap mh).GetStatus ≠ MountStatusMounted then w
  else
    let key := (w.heap mh).GetKey
    match w.getCache key with
    | none => { w with mm := { w.mm with m := mapSet w.mm.m key mh } }
    | some prev =>
      if (w.heap prev).GetMountPath ≠ (w.heap mh).GetMountPath then
        -- clean up extra mounted
        { w with spawned := w.spawned ++ [mh] }
      else w

/-- One iteration of the first loop of `CleanUp`. -/
def scMapStep (provisioner : String) (acc : List (String × StorageClass)) (c : StorageClass) :
    List (String × StorageClass) :=
  if c.Provisioner ≠ provisioner then acc
  else
    match parsePathKey c.Parameters with
    | (_, some _) => acc
    | (k, none) => mapSet acc k c

/-- The first loop of `CleanUp`: the classes of this provisioner with valid
parameters, by key. -/
def scMap (provisioner : String) (curClasses : List StorageClass) : List (String × StorageClass) :=
  curClasses.foldl (scMapStep provisioner) []

/-- The second loop of `CleanUp`: the entries of the table whose handler's
key has no class; `delKeys` and `delMounts` are its two components. -/
def delEntries (w : World) (sc : List (String × StorageClass)) : List (String × Ptr) :=
  w.mm.m.filter (fun kv => (mapGet sc (w.heap kv.2).GetKey).isNone)

/-- Go's `MountManager.CleanUp`. -/
def CleanUp (w : World) (curClasses : List StorageClass) : World :=
  let sc := scMap w.mm.provisioner curClasses
  let del := w.delEntries sc
  let delKeys := del.map Prod.fst
  let delMounts := del.map Prod.snd
  { w with
    mm := { w.mm with m := delKeys.foldl mapDelete w.mm.m },
    spawned := w.spawned ++ delMounts }

/-- Go's `MountManager.releaseHandler`; logging is left out. -/
def releaseHandler (w : World) (mh : Ptr) (s : UnmountScript) : World :=
  let r := (w.heap mh).Unmount s
  { w with heap := Function.update w.heap mh r.1, trace := w.trace ++ r.2.2 }

end World

/-! ## provisioner.go -/

/-- The part of `controller.VolumeOptions` that decides what `Provision`
does; reclaim policy, access modes and capacity are copied into the volume
untouched and are left out. -/
structure VolumeOptions where
  PVName : String
  PVC : PersistentVolumeClaim
  Parameters : Params
deriving DecidableEq, Repr

/-- The part of a `corev1.PersistentVolume` that `Provision` computes and
`Delete` reads. -/
structure PersistentVolume where
  Name : String
  StorageClassName : String
  Server : String
  Path : String
  ReadOnly : Bool
deriving DecidableEq, Repr

namespace World

/-- Go's `NfsProvisioner.Provision`; `mountDir` and `s` are drawn by the
`Mount` of a cache miss, `mkdir` is the result of `os.Mkdir`. -/
def Provision (w : World) (options : VolumeOptions) (mountDir : String) (s : MountScript)
    (mkdir : Option Error) : World × Option PersistentVolume × Option Error :=
  if options.PVC.Selector.isSome then (w, none, some .ErrClaimSelectorNotSupported)
  else
    match CheckClassNfsReadOnlyFormat options.Parameters with
    | some e => (w, none, some e)
    | none =>
      let pvcNamespace := options.PVC.Namespace
      let pvcName := options.PVC.Name
      let scName := GetPVCClass options.PVC
      let pvName := stringsJoin [pvcNamespace, pvcName, options.PVName] "-"
      match w.Get options.Parameters mountDir s with
      | (w1, _, some e) => (w1, none, some e)
      | (w1, none, none) => (w1, none, none)
      | (w1, some mh, none) =>
        let r := (w1.heap mh).AddVolume pvName mkdir
        let w2 : World := { w1 with trace := w1.trace ++ r.2.2 }
        match r.2.1 with
        | some e =>
          (w2.Return mh, none,
            some (.new ("unable to create directory to provision new pv: " ++ e.text)))
        | none =>
          let w3 : World := { w2 with trace := w2.trace ++ [.Chmod r.1] }
          let path := Join [(w3.heap mh).GetExportPath, pvName]
          let pv : PersistentVolume :=
            { Name := options.PVName, StorageClassName := scName,
              Server := (w3.heap mh).GetServer, Path := path,
              ReadOnly := IsClassNfsReadOnly options.Parameters }
          (w3.Return mh, some pv, none)

/-- Go's `NfsProvisioner.Delete`; `rename` is the result of `os.Rename`.  The
goroutine that removes the archived directory is left out. -/
def Delete (w : World) (volume : PersistentVolume) (mountDir : String) (s : MountScript)
    (rename : Option Error) : World × Option Error :=
  let server := volume.Server
  let path := volume.Path
  let exportPath := Dir path
  let pvName := Base path
  match w.GetByPath server exportPath mountDir s with
  | (w1, _, some e) => (w1, some e)
  | (w1, none, none) => (w1, none)
  | (w1, some mh, none) =>
    let oldPath := Join [(w1.heap mh).GetMountPath, pvName]
    let archivePath := Join [(w1.heap mh).GetMountPath, "archived-" ++ pvName]
    let w2 : World := { w1 with trace := w1.trace ++ [.Rename oldPath archivePath] }
    ((w2.Return mh), rename)

end World

/-! ## The requests, the sweeps and the unmounts as a transition system -/

/-- The world together with the handlers that requests hold: a handler is in
`inUse` once for every `GetByPath` that returned it and has not been matched by
a `Return` yet. -/
structure Sys where
  w : World
  inUse : List Ptr

/-- The steps: a request resolves a handler, a request returns the handler it
holds, the reconcile loop sweeps, a started `releaseHandler` goroutine runs. -/
inductive Step where
  | resolve (server exportPath : String) (entropy : Nat) (s : MountScript)
  | release (mh : Ptr)
  | sweep (curClasses : List StorageClass)
  | unmount (mh : Ptr) (s : UnmountScript)
deriving DecidableEq, Repr

namespace Sys

/-- The state after `NewMountManager`: nothing allocated, an empty table. -/
def init (provisioner mountBase : String) (opts : List String) : Sys :=
  { w := { heap := fun _ => NewMountHandler "" "", next := 0,
           mm := { m := [], provisioner := provisioner, mountBase := mountBase,
                   DefaultMountOpts := opts },
           spawned := [], trace := [] },
    inUse := [] }

/-- One step; `none` when the step is not enabled (a release of a handler
that is not held, an unmount that no goroutine was started for). -/
def step (σ : Sys) : Step → Option Sys
  | .resolve server exportPath entropy s =>
    match σ.w.GetByPath server exportPath (NewUUID entropy) s with
    | (w1, some mh, none) => some { w := w1, inUse := mh :: σ.inUse }
    | (w1, _, _) => some { w := w1, inUse := σ.inUse }
  | .release mh =>
    if mh ∈ σ.inUse then some { w := σ.w.Return mh, inUse := σ.inUse.erase mh } else none
  | .sweep curClasses => some { w := σ.w.CleanUp curClasses, inUse := σ.inUse }
  | .unmount mh s =>
    if mh ∈ σ.w.spawned then
      some { w := { σ.w.releaseHandler mh s with spawned := σ.w.spawned.erase mh },
             inUse := σ.inUse }
    else none

/-- A run: the steps one after the other. -/
def run (σ : Sys) : List Step → Option Sys
  | [] => some σ
  | st :: rest =>
    match σ.step st with
    | none => none
    | some σ1 => σ1.run rest

end Sys

/-! ## A handler under a sequence of calls -/

/-- A call on one handler, with what the outside world answers to it. -/
inductive HandlerOp where
  | Mount (mountBase : String) (mountOptions : List String) (entropy : Nat) (s : MountScript)
  | Unmount (s : UnmountScript)
  | AddVolume (volName : String) (mkdir : Option Error)
deriving DecidableEq, Repr

/-- The handler after one call. -/
def MountHandler.apply (mh : MountHandler) : HandlerOp → MountHandler
  | .Mount mountBase mountOptions entropy s =>
    (mh.Mount mountBase mountOptions (NewUUID entropy) s).1
  | .Unmount s => (mh.Unmount s).1
  | .AddVolume _ _ => mh

/-- The handler after a sequence of calls. -/
def MountHandler.applyAll (mh : MountHandler) (ops : List HandlerOp) : MountHandler :=
  ops.foldl MountHandler.apply mh

/-! ## Predicates of the statements, and sample worlds -/

/-- The written part of the buffer lies inside it. -/
def lazybuf.ok (b : lazybuf) : Prop := b.w ≤ b.buf.length

/-- The invariant that the handler operations keep: the mount path is empty
on a New handler and set on a Mounted or Unmounted one. -/
def MountHandler.Inv (mh : MountHandler) : Prop :=
  (mh.mountPath = "" ∧ mh.status = MountStatusNew) ∨
  (mh.mountPath ≠ "" ∧ (mh.status = MountStatusMounted ∨ mh.status = MountStatusUnmounted))

/-- Every entry of the table is stored under the key of its handler. -/
def World.KeyedByHandler (w : World) : Prop :=
  ∀ k p, (k, p) ∈ w.mm.m → (w.heap p).GetKey = k

/-- A world with two Mounted handlers of the export `10.0.0.1:/export`, at
pointers 0 and 1, with different mount paths, and an empty table. -/
def twoMounted : World :=
  { heap := fun p => if p = 0 then ⟨"10.0.0.1", "/export", MountStatusMounted, "/mnt/a"⟩
      else ⟨"10.0.0.1", "/export", MountStatusMounted, "/mnt/b"⟩,
    next := 2,
    mm := { m := [], provisioner := "nfs", mountBase := "/mnt", DefaultMountOpts := [] },
    spawned := [], trace := [] }

/-- The key is the canonical key of some listed class that names the
provisioner and has a non-empty server and a non-empty exportPath. -/
def liveKey (provisioner : String) (curClasses : List StorageClass) (k : String) : Bool :=
  curClasses.any (fun c =>
    decide (c.Provisioner = provisioner) &&
    decide (GetClassNfsServer c.Parameters ≠ "") &&
    decide (GetClassNfsExportPath c.Parameters ≠ "") &&
    decide (makeNfsPathKey (GetClassNfsServer c.Parameters) (GetClassNfsExportPath c.Parameters)
      = k))

/-- A world whose table holds the Mounted handlers of two exports. -/
def twoExports : World :=
  { heap := fun p => if p = 0 then ⟨"10.0.0.1", "/export", MountStatusMounted, "/mnt/a"⟩
      else ⟨"10.0.0.2", "/data", MountStatusMounted, "/mnt/b"⟩,
    next := 2,
    mm := { m := [("10.0.0.1:/export", 0), ("10.0.0.2:/data", 1)], provisioner := "nfs",
            mountBase := "/mnt", DefaultMountOpts := [] },
    spawned := [], trace := [] }

/-- The class list that still names the first export of `twoExports`, next
to a class of another provisioner and a class without an export path. -/
def oneClass : List StorageClass :=
  [⟨"nfs", some [("server", "10.0.0.1"), ("exportPath", "/export")]⟩,
   ⟨"other", some [("server", "10.0.0.2"), ("exportPath", "/data")]⟩,
   ⟨"nfs", some [("server", "10.0.0.2")]⟩]

/-- The characters `cs` spell the lower-case word `word` up to the case of
each letter. -/
def eqIgnoreCase : List Char → List Char → Bool
  | [], [] => true
  | c :: cs, t :: ts => (c == t || c == t.toUpper) && eqIgnoreCase cs ts
  | _, _ => false

/-- The string equals the lower-case word up to the case of each letter. -/
def equalsIgnoreCase (s word : String) : Bool := eqIgnoreCase s.data word.data

/-- The letters of a word that `ToLower` can be compared with: lower-case
ASCII letters other than `i` and `k`. -/
def plainLower (word : List Char) : Prop :=
  ∀ t ∈ word, 97 ≤ t.toNat ∧ t.toNat ≤ 122 ∧ t ≠ 'i' ∧ t ≠ 'k'

/-- A plain path element: non-empty, without a separator, and neither `.`
nor `..`. -/
def plainElem (P : List Char) : Prop :=
  P ≠ [] ∧ (∀ x ∈ P, IsPathSeparator x = false) ∧ P ≠ ['.'] ∧ P ≠ ['.', '.']

/-- The buffer once `Clean` has added the slash that a real path element
needs. -/
def slashIfNeeded (rooted : Bool) (out : lazybuf) : lazybuf :=
  if (rooted && out.w != 1) || (!rooted && out.w != 0) then out.append Separator else out

/-- The characters that `Clean` returns for a non-empty path. -/
def cleanChars (E : List Char) : List Char :=
  (if (cleanBuf E).w == 0 then (cleanBuf E).append '.' else cleanBuf E).string

/-- A world with three Mounted handlers of the export `10.0.0.1:/export`,
with three different mount paths; the table holds the third. -/
def threeMounted : World :=
  { heap := fun p =>
      if p = 0 then ⟨"10.0.0.1", "/export", MountStatusMounted, "/mnt/a"⟩
      else if p = 1 then ⟨"10.0.0.1", "/export", MountStatusMounted, "/mnt/b"⟩
      else ⟨"10.0.0.1", "/export", MountStatusMounted, "/mnt/c"⟩,
    next := 3,
    mm := { m := [("10.0.0.1:/export", 2)], provisioner := "nfs", mountBase := "/mnt",
            DefaultMountOpts := [] },
    spawned := [], trace := [] }

/-- The invariant of the transition system for one key `k`, kept as long as
every sweep that runs while a handler of `k` is held finds `k` among the keys
of its classes: the table is keyed by
its handlers; what is held or scheduled is allocated; a handler of `k` that
is scheduled for unmount or already Unmounted is neither held nor in the
table; a handler of `k` that is held and is not the table's entry is held
once. -/
structure Sys.Inv (prov k : String) (σ : Sys) : Prop where
  prov_eq : σ.w.mm.provisioner = prov
  keyed : ∀ k1 p, (k1, p) ∈ σ.w.mm.m → (σ.w.heap p).GetKey = k1 ∧ p < σ.w.next
  inUse_lt : ∀ h ∈ σ.inUse, h < σ.w.next
  spawned_lt : ∀ h ∈ σ.w.spawned, h < σ.w.next
  spawned_free : ∀ h, (σ.w.heap h).GetKey = k → h ∈ σ.w.spawned →
    h ∉ σ.inUse ∧ σ.w.getCache k ≠ some h
  single : ∀ h, (σ.w.heap h).GetKey = k → h ∈ σ.inUse → σ.w.getCache k ≠ some h →
    σ.inUse.count h ≤ 1
  unmounted_free : ∀ h, h < σ.w.next → (σ.w.heap h).GetKey = k →
    (σ.w.heap h).status = MountStatusUnmounted → h ∉ σ.inUse ∧ σ.w.getCache k ≠ some h

/-- A mounter script in which every call succeeds. -/
def okMount : MountScript := ⟨true, none, none, none, true, none, none, true, none⟩

/-- A request mounts `10.0.0.1:/export` and returns the handler to the
table; a second request then resolves it from the table and holds it. -/
def heldRun : List Step :=
  [.resolve "10.0.0.1" "/export" 0 okMount, .release 0, .resolve "10.0.0.1" "/export" 1 okMount]

/-- The class of the export `10.0.0.1:/export`. -/
def exportClass : StorageClass :=
  ⟨"nfs", some [("server", "10.0.0.1"), ("exportPath", "/export")]⟩

/-- Some request holds a handler of the key `k`. -/
def Sys.holdsKey (σ : Sys) (k : String) : Bool :=
  σ.inUse.any (fun h => decide ((σ.w.heap h).GetKey = k))

/-- Along the run of `steps` from `σ`, every sweep that runs while some
request holds a handler of the key `k` finds `k` among the keys of its
classes.  A sweep that runs while no handler of `k` is held may drop `k`. -/
def Sys.sweepsKeep (k : String) : Sys → List Step → Bool
  | _, [] => true
  | σ, st :: rest =>
    (match st with
     | .sweep curClasses => !σ.holdsKey k || liveKey σ.w.mm.provisioner curClasses k
     | _ => true) &&
    (match σ.step st with
     | none => true
     | some σ1 => Sys.sweepsKeep k σ1 rest)

/-! ## Theorems: `filepath.Clean` never returns the empty string -/

theorem lazybuf.ok_append (b : lazybuf) (c : Char) (h : b.ok) : (b.append c).ok := by
  unfold lazybuf.ok lazybuf.append at *
  simp [List.length_take, Nat.min_eq_left h]

theorem lazybuf.string_append (b : lazybuf) (c : Char) (h : b.ok) :
    (b.append c).string = b.string ++ [c] := by
  unfold lazybuf.ok at h
  unfold lazybuf.string lazybuf.append
  simp only
  rw [List.take_append_eq_append_take]
  simp [List.length_take, Nat.min_eq_left h]

theorem lazybuf.w_append (b : lazybuf) (c : Char) : (b.append c).w = b.w + 1 := rfl

theorem lazybuf.ok_appendAll (cs : List Char) (b : lazybuf) (h : b.ok) : (b.appendAll cs).ok := by
  induction cs generalizing b with
  | nil => exact h
  | cons c cs ih => exact ih (b.append c) (lazybuf.ok_append b c h)

theorem lazybuf.string_appendAll (cs : List Char) (b : lazybuf) (h : b.ok) :
    (b.appendAll cs).string = b.string ++ cs := by
  induction cs generalizing b with
  | nil => simp [lazybuf.appendAll]
  | cons c cs ih =>
    have := ih (b.append c) (lazybuf.ok_append b c h)
    simp only [lazybuf.appendAll, List.foldl_cons] at this ⊢
    rw [this, lazybuf.string_append b c h]
    simp

theorem lazybuf.length_string (b : lazybuf) (h : b.ok) : b.string.length = b.w := by
  unfold lazybuf.ok at h
  simp [lazybuf.string, List.length_take, Nat.min_eq_left h]

theorem backtrack_le (out : lazybuf) (dotdot : Nat) (w : Nat) : backtrack out dotdot w ≤ w := by
  induction w with
  | zero => simp [backtrack]
  | succ w ih =>
    unfold backtrack
    split
    · omega
    · exact Nat.le_refl _

theorem cleanStep_ok (rooted : Bool) (c : Char) (rest : List Char) (out : lazybuf)
    (dotdot : Nat) (h : out.ok) : (cleanStep rooted c rest out dotdot).2.1.ok := by
  unfold cleanStep
  split
  · exact h
  · split
    · exact h
    · split
      · split
        · have := backtrack_le out dotdot (out.w - 1)
          unfold lazybuf.ok at *
          simp only
          omega
        · split
          · apply lazybuf.ok_append
            apply lazybuf.ok_append
            split
            · exact lazybuf.ok_append _ _ h
            · exact h
          · exact h
      · apply lazybuf.ok_appendAll
        split
        · exact lazybuf.ok_append _ _ h
        · exact h

theorem cleanLoop_ok (rooted : Bool) (fuel : Nat) (path : List Char) (out : lazybuf)
    (dotdot : Nat) (h : out.ok) : (cleanLoop rooted fuel path out dotdot).ok := by
  induction fuel generalizing path out dotdot with
  | zero => simpa [cleanLoop] using h
  | succ fuel ih =>
    cases path with
    | nil => simpa [cleanLoop] using h
    | cons c rest =>
      unfold cleanLoop
      exact ih _ _ _ (cleanStep_ok rooted c rest out dotdot h)

theorem cleanBuf_ok (path : List Char) : (cleanBuf path).ok := by
  unfold cleanBuf
  apply cleanLoop_ok
  split
  · exact lazybuf.ok_append _ _ (Nat.le_refl _)
  · exact Nat.le_refl _

theorem lazybuf.string_dot_ne_nil (b : lazybuf) (h : b.ok) :
    (if b.w == 0 then b.append '.' else b).string ≠ [] := by
  split
  · rw [lazybuf.string_append _ _ h]
    simp
  · rename_i hw
    intro hnil
    have := lazybuf.length_string _ h
    rw [hnil] at this
    simp at hw this
    omega

theorem Clean_data_ne_nil (path : String) : (Clean path).data ≠ [] := by
  unfold Clean
  split
  · decide
  · exact lazybuf.string_dot_ne_nil _ (cleanBuf_ok _)

theorem len_Clean_ne_zero (path : String) : len (Clean path) ≠ 0 := by
  have := Clean_data_ne_nil path
  unfold len
  intro h
  apply this
  have h2 : (Clean path).data.length = 0 := h
  exact List.length_eq_zero.mp h2

/-! ## Theorems: the handler (mount.go) -/

theorem String.ne_empty_of_data (s : String) (h : s.data ≠ []) : s ≠ "" := by
  intro hs
  apply h
  rw [hs]

theorem NewUUID_data_ne_nil (r : Nat) : (NewUUID r).data ≠ [] := by
  unfold NewUUID
  intro h
  have h2 := congrArg List.length h
  simp at h2

theorem getMountPoint_ne_empty (mountBase : String) (r : Nat) :
    getMountPoint mountBase (NewUUID r) ≠ "" := by
  apply String.ne_empty_of_data
  unfold getMountPoint Join
  split
  · unfold Join
    split
    · rename_i h
      exact absurd (List.isEmpty_iff.mp h) (NewUUID_data_ne_nil r)
    · exact Clean_data_ne_nil _
  · exact Clean_data_ne_nil _

theorem MountHandler.Mount_fst (mh : MountHandler) (mountBase : String) (opts : List String)
    (mountDir : String) (s : MountScript) :
    (mh.Mount mountBase opts mountDir s).1 = mh ∨
    ((mh.Mount mountBase opts mountDir s).1 =
        { mh with status := MountStatusMounted, mountPath := getMountPoint mountBase mountDir } ∧
      (mh.Mount mountBase opts mountDir s).2.1 = none) := by
  unfold MountHandler.Mount
  simp only
  split
  · exact Or.inl rfl
  · split
    · exact Or.inl rfl
    · split
      · exact Or.inl rfl
      · split
        · split
          · exact Or.inl rfl
          · split
            · split
              · exact Or.inl rfl
              · split
                · exact Or.inl rfl
                · split <;> exact Or.inl rfl
            · exact Or.inl rfl
        · exact Or.inr ⟨rfl, rfl⟩

theorem MountHandler.Unmount_fst (mh : MountHandler) (s : UnmountScript) :
    (mh.Unmount s).1 = mh ∨
    (mh.status = MountStatusMounted ∧ mh.mountPath ≠ "" ∧
      (mh.Unmount s).1 = { mh with status := MountStatusUnmounted }) := by
  unfold MountHandler.Unmount
  split
  · exact Or.inl rfl
  · rename_i h
    simp only [not_or, not_not, MountHandler.GetStatus] at h
    by_cases hn : s.notMnt = true
    · right
      refine ⟨h.2, ?_, ?_⟩
      · intro he
        apply h.1
        rw [he]
        rfl
      · simp [hn, MountHandler.SetStatus]
    · left
      simp [hn]

theorem MountHandler.Inv_apply (mh : MountHandler) (op : HandlerOp) (h : mh.Inv) :
    (mh.apply op).Inv := by
  cases op with
  | Mount mountBase opts r s =>
    simp only [MountHandler.apply]
    rcases MountHandler.Mount_fst mh mountBase opts (NewUUID r) s with h1 | ⟨h1, _⟩
    · rw [h1]; exact h
    · rw [h1]
      exact Or.inr ⟨getMountPoint_ne_empty mountBase r, Or.inl rfl⟩
  | Unmount s =>
    simp only [MountHandler.apply]
    rcases MountHandler.Unmount_fst mh s with h1 | ⟨_, h2, h3⟩
    · rw [h1]; exact h
    · rw [h3]
      exact Or.inr ⟨h2, Or.inr rfl⟩
  | AddVolume v m => exact h

theorem MountHandler.Inv_applyAll (ops : List HandlerOp) (mh : MountHandler) (h : mh.Inv) :
    (mh.applyAll ops).Inv := by
  induction ops generalizing mh with
  | nil => exact h
  | cons op ops ih => exact ih (mh.apply op) (MountHandler.Inv_apply mh op h)

/-- C5: `Unmount` on a handler whose status is not Mounted returns
`ErrNotMountedYet`, makes no call on the mounter and leaves the handler as it
was (status, mountPath, server and exportPath). -/
theorem Unmount_not_mounted (mh : MountHandler) (s : UnmountScript)
    (h : mh.status ≠ MountStatusMounted) :
    (mh.Unmount s).2.1 = some Error.ErrNotMountedYet ∧ (mh.Unmount s).2.2 = [] ∧
      (mh.Unmount s).1 = mh := by
  unfold MountHandler.Unmount
  simp [MountHandler.GetStatus, h]

/-- C5, witness: a New handler, and an Unmounted handler that still carries
its mount path. -/
theorem Unmount_not_mounted_witness :
    (NewMountHandler "10.0.0.1" "/export").status ≠ MountStatusMounted ∧
    (((NewMountHandler "10.0.0.1" "/export").Unmount ⟨none, true⟩).2.1
        = some Error.ErrNotMountedYet ∧
      ((NewMountHandler "10.0.0.1" "/export").Unmount ⟨none, true⟩).2.2 = [] ∧
      ((NewMountHandler "10.0.0.1" "/export").Unmount ⟨none, true⟩).1
        = NewMountHandler "10.0.0.1" "/export") ∧
    (((MountHandler.mk "10.0.0.1" "/export" MountStatusUnmounted "/mnt/u").Unmount
        ⟨none, true⟩).2.1 = some Error.ErrNotMountedYet ∧
      ((MountHandler.mk "10.0.0.1" "/export" MountStatusUnmounted "/mnt/u").Unmount
        ⟨none, true⟩).2.2 = [] ∧
      ((MountHandler.mk "10.0.0.1" "/export" MountStatusUnmounted "/mnt/u").Unmount
        ⟨none, true⟩).1 = MountHandler.mk "10.0.0.1" "/export" MountStatusUnmounted "/mnt/u") :=
  ⟨by decide,
   Unmount_not_mounted (NewMountHandler "10.0.0.1" "/export") ⟨none, true⟩ (by decide),
   Unmount_not_mounted (MountHandler.mk "10.0.0.1" "/export" MountStatusUnmounted "/mnt/u")
     ⟨none, true⟩ (by decide)⟩

/-- C4, the code at the failing input: when the first `IsLikelyNotMountPoint`
check answers that the directory is a mount point, `Mount` returns nil after
that single call and leaves the handler as it was; on a New handler the
status stays New and the mount path empty, and `GetByPath` hands that handler
out without an error. -/
theorem Mount_already_mounted_returns_nil (mh : MountHandler) (mountBase : String)
    (opts : List String) (mountDir : String) (s : MountScript) :
    mh.Mount mountBase opts mountDir { s with notMnt1 := false, err1 := none }
        = (mh, none, [Call.IsLikelyNotMountPoint (getMountPoint mountBase mountDir)]) ∧
    ((Sys.init "nfs" "/mnt" []).w.GetByPath "10.0.0.1" "/export" (NewUUID 7)
        { s with notMnt1 := false, err1 := none }).2 = (some 0, none) ∧
    (((Sys.init "nfs" "/mnt" []).w.GetByPath "10.0.0.1" "/export" (NewUUID 7)
        { s with notMnt1 := false, err1 := none }).1.heap 0)
        = NewMountHandler "10.0.0.1" "/export" := by
  refine ⟨?_, ?_, ?_⟩
  · unfold MountHandler.Mount
    simp [IsNotExist]
  · unfold World.GetByPath
    simp [nfsPathCheck, len, World.getCache, mapGet, Sys.init, MountHandler.Mount, IsNotExist,
      show "10.0.0.1".length ≠ 0 by decide, show "/export".length ≠ 0 by decide]
  · unfold World.GetByPath
    simp [nfsPathCheck, len, World.getCache, mapGet, Sys.init, MountHandler.Mount, IsNotExist,
      show "10.0.0.1".length ≠ 0 by decide, show "/export".length ≠ 0 by decide]

/-- C7, the code at the failing input: the guard `len(filepath.Clean(volName))
== 0` never fires, because `Clean` never returns the empty string; on a
Mounted handler the names "", "." and ".." all reach `os.Mkdir`, on the mount
path itself or on its parent. -/
theorem AddVolume_empty_name_reaches_mkdir :
    (∀ volName : String, len (Clean volName) ≠ 0) ∧
    (MountHandler.mk "10.0.0.1" "/export" MountStatusMounted "/mnt/u").AddVolume "" none
        = ("/mnt/u", none, [Call.Mkdir "/mnt/u"]) ∧
    (MountHandler.mk "10.0.0.1" "/export" MountStatusMounted "/mnt/u").AddVolume "." none
        = ("/mnt/u", none, [Call.Mkdir "/mnt/u"]) ∧
    (MountHandler.mk "10.0.0.1" "/export" MountStatusMounted "/mnt/u").AddVolume ".." none
        = ("/mnt", none, [Call.Mkdir "/mnt"]) :=
  ⟨len_Clean_ne_zero, by decide, by decide, by decide⟩

/-- C6, counterexample: after a successful `Mount` and a confirmed `Unmount`
the handler is Unmounted and its mount path is still set. -/
theorem mountPath_iff_Mounted_counterexample :
    ((NewMountHandler "10.0.0.1" "/export").applyAll
        [.Mount "/mnt" [] 0 ⟨true, none, none, none, true, none, none, true, none⟩,
         .Unmount ⟨none, true⟩]).status = MountStatusUnmounted ∧
    ((NewMountHandler "10.0.0.1" "/export").applyAll
        [.Mount "/mnt" [] 0 ⟨true, none, none, none, true, none, none, true, none⟩,
         .Unmount ⟨none, true⟩]).mountPath = "/mnt/00000000-0000-0000-0000-000000000000" ∧
    ¬ (((NewMountHandler "10.0.0.1" "/export").applyAll
        [.Mount "/mnt" [] 0 ⟨true, none, none, none, true, none, none, true, none⟩,
         .Unmount ⟨none, true⟩]).mountPath ≠ "" ↔
      ((NewMountHandler "10.0.0.1" "/export").applyAll
        [.Mount "/mnt" [] 0 ⟨true, none, none, none, true, none, none, true, none⟩,
         .Unmount ⟨none, true⟩]).status = MountStatusMounted) := by
  decide

/-- C6, amended: for every handler reachable from `NewMountHandler` by any
sequence of `Mount`, `Unmount` and `AddVolume` calls, with arbitrary answers
of the mounter, the mount path is non-empty if and only if the status is
Mounted or Unmounted. -/
theorem mountPath_iff_not_New (server exportPath : String) (ops : List HandlerOp) :
    ((NewMountHandler server exportPath).applyAll ops).mountPath ≠ "" ↔
      (((NewMountHandler server exportPath).applyAll ops).status = MountStatusMounted ∨
       ((NewMountHandler server exportPath).applyAll ops).status = MountStatusUnmounted) := by
  have h := MountHandler.Inv_applyAll ops (NewMountHandler server exportPath) (Or.inl ⟨rfl, rfl⟩)
  rcases h with ⟨h1, h2⟩ | ⟨h1, h2⟩
  · constructor
    · intro hne; exact absurd h1 hne
    · intro hs
      rw [h2] at hs
      rcases hs with hs | hs <;> exact absurd hs (by decide)
  · exact ⟨fun _ => h2, fun _ => h1⟩

/-! ## Theorems: the table (manager.go) -/

theorem mapGet_mapDelete {V : Type} (m : List (String × V)) (key k : String) :
    mapGet (mapDelete m key) k = if k = key then none else mapGet m k := by
  induction m with
  | nil => simp [mapGet, mapDelete]
  | cons kv m ih =>
    obtain ⟨a, v⟩ := kv
    unfold mapGet mapDelete at *
    by_cases ha : a = key
    · subst ha
      simp only [List.filter_cons, bne_self_eq_false, Bool.false_eq_true, ↓reduceIte, ih]
      by_cases hk : k = a
      · simp [hk]
      · have hk2 : (k == a) = false := by simpa using hk
        simp [hk, hk2, List.lookup_cons]
    · have hb : (a != key) = true := by simpa using ha
      simp only [List.filter_cons, hb, ↓reduceIte, List.lookup_cons]
      by_cases hk : k = a
      · subst hk
        simp [ha]
      · have hk2 : (k == a) = false := by simpa using hk
        simp only [hk2]
        exact ih

theorem mapGet_mapSet {V : Type} (m : List (String × V)) (key k : String) (v : V) :
    mapGet (mapSet m key v) k = if k = key then some v else mapGet m k := by
  unfold mapSet
  by_cases hk : k = key
  · subst hk
    simp [mapGet, List.lookup_cons]
  · have hk2 : (k == key) = false := by simpa using hk
    have := mapGet_mapDelete m key k
    simp only [hk, ↓reduceIte] at this ⊢
    rw [← this]
    simp [mapGet, List.lookup_cons, hk2]

theorem mem_mapDelete {V : Type} (m : List (String × V)) (key : String) (kv : String × V) :
    kv ∈ mapDelete m key ↔ kv ∈ m ∧ kv.1 ≠ key := by
  simp [mapDelete]

theorem mem_foldl_mapDelete {V : Type} (ks : List String) (m : List (String × V))
    (kv : String × V) : kv ∈ ks.foldl mapDelete m ↔ kv ∈ m ∧ kv.1 ∉ ks := by
  induction ks generalizing m with
  | nil => simp
  | cons k ks ih =>
    simp only [List.foldl_cons, ih, mem_mapDelete, List.mem_cons, not_or]
    tauto

theorem mapGet_foldl_mapDelete {V : Type} (ks : List String) (m : List (String × V))
    (k : String) (hk : k ∉ ks) : mapGet (ks.foldl mapDelete m) k = mapGet m k := by
  induction ks generalizing m with
  | nil => rfl
  | cons a ks ih =>
    simp only [List.mem_cons, not_or] at hk
    simp only [List.foldl_cons]
    rw [ih _ hk.2, mapGet_mapDelete]
    simp [hk.1]

theorem mapGet_some_mem {V : Type} (m : List (String × V)) (k : String) (v : V)
    (h : mapGet m k = some v) : (k, v) ∈ m := by
  induction m with
  | nil => simp [mapGet] at h
  | cons kv m ih =>
    obtain ⟨a, b⟩ := kv
    unfold mapGet at h ih
    rw [List.lookup_cons] at h
    by_cases hk : k = a
    · subst hk
      simp at h
      simp [h]
    · have hk2 : (k == a) = false := by simpa using hk
      simp only [hk2] at h
      exact List.mem_cons_of_mem _ (ih h)

/-- Two lists that agree after a separator that occurs in neither prefix
have the same prefixes and the same rests. -/
theorem append_sep_inj (c : Char) (a b x y : List Char) (ha : c ∉ a) (hx : c ∉ x)
    (h : a ++ c :: b = x ++ c :: y) : a = x ∧ b = y := by
  induction a generalizing x with
  | nil =>
    cases x with
    | nil => simpa using h
    | cons d x =>
      simp only [List.nil_append, List.cons_append, List.cons.injEq] at h
      simp only [List.mem_cons, not_or] at hx
      exact absurd h.1 hx.1
  | cons d a ih =>
    cases x with
    | nil =>
      simp only [List.nil_append, List.cons_append, List.cons.injEq] at h
      simp only [List.mem_cons, not_or] at ha
      exact absurd h.1.symm ha.1
    | cons e x =>
      simp only [List.cons_append, List.cons.injEq] at h
      simp only [List.mem_cons, not_or] at ha hx
      obtain ⟨h1, h2⟩ := ih x ha.2 hx.2 h.2
      exact ⟨by rw [h.1, h1], h2⟩

theorem makeNfsPathKey_data (server exportPath : String) :
    (makeNfsPathKey server exportPath).data = server.data ++ ':' :: exportPath.data := by
  unfold makeNfsPathKey
  simp [String.data_append]

theorem makeNfsPathKey_inj (s1 e1 s2 e2 : String) (h1 : ':' ∉ s1.data) (h2 : ':' ∉ s2.data)
    (h : makeNfsPathKey s1 e1 = makeNfsPathKey s2 e2) : s1 = s2 ∧ e1 = e2 := by
  have hd := congrArg String.data h
  rw [makeNfsPathKey_data, makeNfsPathKey_data] at hd
  obtain ⟨ha, hb⟩ := append_sep_inj ':' _ _ _ _ h1 h2 hd
  exact ⟨String.ext ha, String.ext hb⟩

theorem twoExports_keyed : twoExports.KeyedByHandler := by
  intro k p h
  simp only [twoExports, List.mem_cons, Prod.mk.injEq, List.mem_nil_iff, or_false] at h
  rcases h with ⟨rfl, rfl⟩ | ⟨rfl, rfl⟩ <;> decide

/-- C10, counterexample: two export identities with four non-empty fields
and the same key; after the first has been mounted and returned to the
table, `GetByPath` for the second hits the cache and hands out the handler
of the first. -/
theorem makeNfsPathKey_not_injective :
    makeNfsPathKey "nas" "/a:/b" = makeNfsPathKey "nas:/a" "/b" ∧
    "nas" ≠ "nas:/a" ∧ "/a:/b" ≠ "/b" ∧
    (((Sys.init "nfs" "/mnt" []).run
        [.resolve "nas" "/a:/b" 0 ⟨true, none, none, none, true, none, none, true, none⟩,
         .release 0]).map
      (fun σ => ((σ.w.GetByPath "nas:/a" "/b" (NewUUID 1)
          ⟨true, none, none, none, true, none, none, true, none⟩).2,
        (σ.w.heap 0).server, (σ.w.heap 0).exportPath)))
      = some ((some 0, none), "nas", "/a:/b") := by
  decide

/-- C10, amended: for export identities whose servers contain no ':' equal
keys imply equal servers and equal export paths; hence, in a table whose
entries are stored under their handler's key, a cache hit in `GetByPath`
returns a handler whose server and exportPath are the requested ones,
provided neither the requested server nor the handler's server contains ':'. -/
theorem key_identifies_export_of_no_colon (server1 exportPath1 server2 exportPath2 : String)
    (h1 : ':' ∉ server1.data) (h2 : ':' ∉ server2.data) :
    (makeNfsPathKey server1 exportPath1 = makeNfsPathKey server2 exportPath2 →
      server1 = server2 ∧ exportPath1 = exportPath2) ∧
    (∀ (w : World) (mh : Ptr) (mountDir : String) (s : MountScript), w.KeyedByHandler →
      w.getCache (makeNfsPathKey server1 exportPath1) = some mh →
      (w.heap mh).server = server2 → (w.heap mh).exportPath = exportPath2 →
      len server1 ≠ 0 → len exportPath1 ≠ 0 →
      w.GetByPath server1 exportPath1 mountDir s = (w, some mh, none) ∧
      server2 = server1 ∧ exportPath2 = exportPath1) := by
  refine ⟨makeNfsPathKey_inj _ _ _ _ h1 h2, ?_⟩
  intro w mh mountDir s hw hit hs he hl1 hl2
  have hmem := mapGet_some_mem _ _ _ hit
  have hk := hw _ _ hmem
  unfold MountHandler.GetKey at hk
  rw [hs, he] at hk
  obtain ⟨ha, hb⟩ := makeNfsPathKey_inj _ _ _ _ h2 h1 hk
  refine ⟨?_, ha, hb⟩
  unfold World.GetByPath
  simp [nfsPathCheck, hl1, hl2, hit]

/-- C10, witness: the export `10.0.0.1:/export` against the table of
`twoExports`, which holds its handler. -/
theorem key_identifies_export_of_no_colon_witness :
    ':' ∉ "10.0.0.1".data ∧
    (twoExports.GetByPath "10.0.0.1" "/export" (NewUUID 0)
        ⟨true, none, none, none, true, none, none, true, none⟩ = (twoExports, some 0, none) ∧
      "10.0.0.1" = "10.0.0.1" ∧ "/export" = "/export") :=
  ⟨by decide,
   (key_identifies_export_of_no_colon "10.0.0.1" "/export" "10.0.0.1" "/export"
      (by decide) (by decide)).2 twoExports 0 (NewUUID 0)
      ⟨true, none, none, none, true, none, none, true, none⟩ twoExports_keyed
      (by decide) (by decide) (by decide) (by decide) (by decide)⟩

/-- C2, counterexample: two Mounted handlers of one key with different mount
paths, returned into a table that already holds a third handler for that key
(three requests missed, the third was returned first).  Neither of the two
is left in the table, and both are scheduled for unmount. -/
theorem Return_two_into_occupied_table :
    (threeMounted.heap 0).status = MountStatusMounted ∧
    (threeMounted.heap 1).status = MountStatusMounted ∧
    (threeMounted.heap 0).GetKey = (threeMounted.heap 1).GetKey ∧
    (threeMounted.heap 0).mountPath ≠ (threeMounted.heap 1).mountPath ∧
    ((threeMounted.Return 0).Return 1).mm.m = [("10.0.0.1:/export", 2)] ∧
    ((threeMounted.Return 0).Return 1).getCache "10.0.0.1:/export" ≠ some 0 ∧
    ((threeMounted.Return 0).Return 1).spawned = [0, 1] := by
  decide

/-- C2, amended: `Return` of handler `h` with key `k`.  (1) If `h` is not
Mounted the world is unchanged: same table, nothing scheduled.  (2) If `h`
is Mounted and `k` is absent, the table afterwards maps `k` to `h` and is
otherwise unchanged, and nothing is scheduled.  (3) If `h` is Mounted and
`k` is present with entry `p`, the table is unchanged and `h` is scheduled
for unmount exactly when the mount path of `p` differs from that of `h`.
(4) Consequently, when two Mounted handlers of the same key with different
mount paths are returned one after the other into a table without that key,
the table ends as the old one with the key mapped to the first returned, and
the second is the one scheduled for unmount. -/
theorem Return_spec (w : World) (h : Ptr) :
    ((w.heap h).status ≠ MountStatusMounted → w.Return h = w) ∧
    ((w.heap h).status = MountStatusMounted → w.getCache (w.heap h).GetKey = none →
      (w.Return h).mm.m = mapSet w.mm.m (w.heap h).GetKey h ∧
      (∀ k, (w.Return h).getCache k
        = if k = (w.heap h).GetKey then some h else w.getCache k) ∧
      (w.Return h).spawned = w.spawned ∧ (w.Return h).heap = w.heap) ∧
    (∀ p, (w.heap h).status = MountStatusMounted → w.getCache (w.heap h).GetKey = some p →
      (w.Return h).mm.m = w.mm.m ∧ (w.Return h).heap = w.heap ∧
      ((w.heap p).mountPath ≠ (w.heap h).mountPath → (w.Return h).spawned = w.spawned ++ [h]) ∧
      ((w.heap p).mountPath = (w.heap h).mountPath → (w.Return h).spawned = w.spawned)) ∧
    (∀ h2, (w.heap h).status = MountStatusMounted → (w.heap h2).status = MountStatusMounted →
      (w.heap h2).GetKey = (w.heap h).GetKey → (w.heap h).mountPath ≠ (w.heap h2).mountPath →
      w.getCache (w.heap h).GetKey = none →
      ((w.Return h).Return h2).mm.m = mapSet w.mm.m (w.heap h).GetKey h ∧
      ((w.Return h).Return h2).getCache (w.heap h).GetKey = some h ∧
      ((w.Return h).Return h2).spawned = w.spawned ++ [h2] ∧
      ((w.Return h).Return h2).heap = w.heap) := by
  have case2 : (w.heap h).status = MountStatusMounted → w.getCache (w.heap h).GetKey = none →
      w.Return h = { w with mm := { w.mm with m := mapSet w.mm.m (w.heap h).GetKey h } } := by
    intro hs hc
    unfold World.Return
    simp [MountHandler.GetStatus, hs, hc]
  refine ⟨?_, ?_, ?_, ?_⟩
  · intro hs
    unfold World.Return
    simp [MountHandler.GetStatus, hs]
  · intro hs hc
    rw [case2 hs hc]
    refine ⟨rfl, ?_, rfl, rfl⟩
    intro k
    simp only [World.getCache]
    exact mapGet_mapSet _ _ _ _
  · intro p hs hc
    unfold World.Return
    simp only [MountHandler.GetStatus, hs, hc, MountHandler.GetMountPath, ne_eq,
      not_true_eq_false, ↓reduceIte]
    by_cases hp : (w.heap p).mountPath = (w.heap h).mountPath
    · simp [hp]
    · simp [hp]
  · intro h2 hs hs2 hk hp hc
    rw [case2 hs hc]
    unfold World.Return
    simp only [MountHandler.GetStatus, hs2, ne_eq, not_true_eq_false, ↓reduceIte, hk,
      World.getCache, mapGet_mapSet, MountHandler.GetMountPath, hp, not_false_eq_true]
    exact ⟨trivial, trivial, trivial, trivial⟩

/-- C2, witness: the two handlers of `twoMounted` returned in either order. -/
theorem Return_spec_witness :
    ((twoMounted.Return 0).Return 1).getCache "10.0.0.1:/export" = some 0 ∧
    ((twoMounted.Return 0).Return 1).spawned = [1] ∧
    ((twoMounted.Return 1).Return 0).getCache "10.0.0.1:/export" = some 1 ∧
    ((twoMounted.Return 1).Return 0).spawned = [0] :=
  ⟨((Return_spec twoMounted 0).2.2.2 1 (by decide) (by decide) (by decide) (by decide)
      (by decide)).2.1,
   ((Return_spec twoMounted 0).2.2.2 1 (by decide) (by decide) (by decide) (by decide)
      (by decide)).2.2.1,
   ((Return_spec twoMounted 1).2.2.2 0 (by decide) (by decide) (by decide) (by decide)
      (by decide)).2.1,
   ((Return_spec twoMounted 1).2.2.2 0 (by decide) (by decide) (by decide) (by decide)
      (by decide)).2.2.1⟩

theorem len_eq_zero_iff (s : String) : len s = 0 ↔ s = "" := by
  unfold len
  constructor
  · intro h
    have h2 : s.data.length = 0 := h
    exact String.ext (List.length_eq_zero.mp h2)
  · intro h
    rw [h]
    rfl

theorem parsePathKey_valid (pm : Params) (h1 : GetClassNfsServer pm ≠ "")
    (h2 : GetClassNfsExportPath pm ≠ "") :
    parsePathKey pm
      = (makeNfsPathKey (GetClassNfsServer pm) (GetClassNfsExportPath pm), none) := by
  cases pm with
  | none => exact absurd rfl h1
  | some l =>
    have e1 : ¬ len (GetClassNfsServer (some l)) = 0 := fun h => h1 ((len_eq_zero_iff _).mp h)
    have e2 : ¬ len (GetClassNfsExportPath (some l)) = 0 :=
      fun h => h2 ((len_eq_zero_iff _).mp h)
    simp [parsePathKey, parseNfsPath, nfsPathCheck, e1, e2]

theorem parsePathKey_invalid (pm : Params)
    (h : GetClassNfsServer pm = "" ∨ GetClassNfsExportPath pm = "") :
    ∃ k e, parsePathKey pm = (k, some e) := by
  cases pm with
  | none => exact ⟨_, _, rfl⟩
  | some l =>
    by_cases h1 : GetClassNfsServer (some l) = ""
    · have e1 : len (GetClassNfsServer (some l)) = 0 := (len_eq_zero_iff _).mpr h1
      exact ⟨"", .ErrParametersMapServerEmpty,
        by simp [parsePathKey, parseNfsPath, nfsPathCheck, e1]⟩
    · have h2 : GetClassNfsExportPath (some l) = "" := h.resolve_left h1
      have e1 : ¬ len (GetClassNfsServer (some l)) = 0 := fun h => h1 ((len_eq_zero_iff _).mp h)
      have e2 : len (GetClassNfsExportPath (some l)) = 0 := (len_eq_zero_iff _).mpr h2
      exact ⟨"", .ErrParametersMapExportPathEmpty,
        by simp [parsePathKey, parseNfsPath, nfsPathCheck, e1, e2]⟩

theorem scMapStep_isSome (provisioner : String) (acc : List (String × StorageClass))
    (c : StorageClass) (k : String) :
    (mapGet (World.scMapStep provisioner acc c) k).isSome
      = ((mapGet acc k).isSome || liveKey provisioner [c] k) := by
  unfold World.scMapStep liveKey
  by_cases hp : c.Provisioner = provisioner
  · by_cases h1 : GetClassNfsServer c.Parameters = ""
    · obtain ⟨k0, e, he⟩ := parsePathKey_invalid c.Parameters (Or.inl h1)
      simp [hp, he, h1]
    · by_cases h2 : GetClassNfsExportPath c.Parameters = ""
      · obtain ⟨k0, e, he⟩ := parsePathKey_invalid c.Parameters (Or.inr h2)
        simp [hp, he, h2]
      · rw [parsePathKey_valid _ h1 h2]
        simp only [hp, ne_eq, not_true_eq_false, ↓reduceIte, mapGet_mapSet, List.any_cons,
          decide_True, h1, not_false_eq_true, h2, Bool.and_self, Bool.true_and, List.any_nil,
          Bool.or_false]
        by_cases hk : k = makeNfsPathKey (GetClassNfsServer c.Parameters)
            (GetClassNfsExportPath c.Parameters)
        · simp [hk]
        · have hk2 : ¬ makeNfsPathKey (GetClassNfsServer c.Parameters)
              (GetClassNfsExportPath c.Parameters) = k := fun h => hk h.symm
          simp [hk, hk2]
  · simp [hp]

theorem scMap_foldl_isSome (provisioner : String) (cs : List StorageClass)
    (acc : List (String × StorageClass)) (k : String) :
    (mapGet (cs.foldl (World.scMapStep provisioner) acc) k).isSome
      = ((mapGet acc k).isSome || liveKey provisioner cs k) := by
  induction cs generalizing acc with
  | nil => simp [liveKey]
  | cons c cs ih =>
    simp only [List.foldl_cons]
    rw [ih, scMapStep_isSome]
    simp only [liveKey, List.any_cons, List.any_nil, Bool.or_false, Bool.or_assoc]

theorem scMap_isSome (provisioner : String) (cs : List StorageClass) (k : String) :
    (mapGet (World.scMap provisioner cs) k).isSome = liveKey provisioner cs k := by
  unfold World.scMap
  rw [scMap_foldl_isSome]
  simp [mapGet]

theorem mem_delEntries_iff (w : World) (curClasses : List StorageClass)
    (hw : w.KeyedByHandler) (k : String) (p : Ptr) :
    (k, p) ∈ w.delEntries (World.scMap w.mm.provisioner curClasses) ↔
      ((k, p) ∈ w.mm.m ∧ liveKey w.mm.provisioner curClasses k = false) := by
  unfold World.delEntries
  rw [List.mem_filter]
  constructor
  · rintro ⟨hm, hn⟩
    refine ⟨hm, ?_⟩
    rw [← scMap_isSome]
    simp only [hw k p hm] at hn
    cases hg : mapGet (World.scMap w.mm.provisioner curClasses) k with
    | none => rfl
    | some v => rw [hg] at hn; simp at hn
  · rintro ⟨hm, hn⟩
    refine ⟨hm, ?_⟩
    rw [← scMap_isSome] at hn
    simp only [hw k p hm]
    cases hg : mapGet (World.scMap w.mm.provisioner curClasses) k with
    | none => rfl
    | some v => rw [hg] at hn; simp at hn

theorem delKeys_not_live (w : World) (curClasses : List StorageClass) (hw : w.KeyedByHandler)
    (k : String)
    (hk : k ∈ (w.delEntries (World.scMap w.mm.provisioner curClasses)).map Prod.fst) :
    liveKey w.mm.provisioner curClasses k = false := by
  rw [List.mem_map] at hk
  obtain ⟨⟨k1, p1⟩, hmem, rfl⟩ := hk
  exact ((mem_delEntries_iff w curClasses hw k1 p1).mp hmem).2

theorem mem_CleanUp_iff (w : World) (curClasses : List StorageClass) (hw : w.KeyedByHandler)
    (k : String) (p : Ptr) :
    (k, p) ∈ (w.CleanUp curClasses).mm.m ↔
      ((k, p) ∈ w.mm.m ∧ liveKey w.mm.provisioner curClasses k = true) := by
  unfold World.CleanUp
  simp only [mem_foldl_mapDelete]
  constructor
  · rintro ⟨hm, hn⟩
    refine ⟨hm, ?_⟩
    cases hl : liveKey w.mm.provisioner curClasses k with
    | true => rfl
    | false =>
      exfalso
      apply hn
      rw [List.mem_map]
      exact ⟨(k, p), (mem_delEntries_iff w curClasses hw k p).mpr ⟨hm, hl⟩, rfl⟩
  · rintro ⟨hm, hl⟩
    refine ⟨hm, ?_⟩
    intro hk
    have := delKeys_not_live w curClasses hw k hk
    rw [hl] at this
    exact absurd this (by decide)

theorem getCache_CleanUp (w : World) (curClasses : List StorageClass) (hw : w.KeyedByHandler)
    (k : String) (hl : liveKey w.mm.provisioner curClasses k = true) :
    (w.CleanUp curClasses).getCache k = w.getCache k := by
  unfold World.CleanUp World.getCache
  simp only
  apply mapGet_foldl_mapDelete
  intro hk
  have := delKeys_not_live w curClasses hw k hk
  rw [hl] at this
  exact absurd this (by decide)

/-- C1: in a table whose entries are stored under their handler's key,
`CleanUp` keeps exactly the entries whose key is the canonical key of some
listed class that names this provisioner and has a non-empty server and
exportPath, and removes the others; a kept key still resolves to the same
handler, no handler is modified (status and mountPath are as before, so a
Mounted one is still Mounted); and the handlers newly scheduled for unmount
are exactly those of the removed entries. -/
theorem CleanUp_spec (w : World) (curClasses : List StorageClass) (hw : w.KeyedByHandler) :
    (∀ k p, (k, p) ∈ (w.CleanUp curClasses).mm.m ↔
      ((k, p) ∈ w.mm.m ∧ liveKey w.mm.provisioner curClasses k = true)) ∧
    (∀ k, liveKey w.mm.provisioner curClasses k = true →
      (w.CleanUp curClasses).getCache k = w.getCache k) ∧
    (w.CleanUp curClasses).heap = w.heap ∧
    (∃ delMounts, (w.CleanUp curClasses).spawned = w.spawned ++ delMounts ∧
      ∀ p, p ∈ delMounts ↔ ∃ k, (k, p) ∈ w.mm.m ∧ (k, p) ∉ (w.CleanUp curClasses).mm.m) := by
  refine ⟨mem_CleanUp_iff w curClasses hw, getCache_CleanUp w curClasses hw, rfl, ?_⟩
  refine ⟨(w.delEntries (World.scMap w.mm.provisioner curClasses)).map Prod.snd, rfl, ?_⟩
  intro p
  rw [List.mem_map]
  constructor
  · rintro ⟨⟨k1, p1⟩, hm, rfl⟩
    have h1 := (mem_delEntries_iff w curClasses hw k1 p1).mp hm
    refine ⟨k1, h1.1, ?_⟩
    intro hc
    have h2 := ((mem_CleanUp_iff w curClasses hw k1 p1).mp hc).2
    rw [h1.2] at h2
    exact absurd h2 (by decide)
  · rintro ⟨k, hm, hn⟩
    refine ⟨(k, p), (mem_delEntries_iff w curClasses hw k p).mpr ⟨hm, ?_⟩, rfl⟩
    cases hl : liveKey w.mm.provisioner curClasses k with
    | false => rfl
    | true => exact absurd ((mem_CleanUp_iff w curClasses hw k p).mpr ⟨hm, hl⟩) hn

/-- C1, witness: the sweep of `twoExports` with `oneClass` keeps the first
export and evicts the second. -/
theorem CleanUp_spec_witness :
    twoExports.KeyedByHandler ∧
    (twoExports.CleanUp oneClass).mm.m = [("10.0.0.1:/export", 0)] ∧
    (twoExports.CleanUp oneClass).spawned = [1] ∧
    (∀ k p, (k, p) ∈ (twoExports.CleanUp oneClass).mm.m ↔
      ((k, p) ∈ twoExports.mm.m ∧ liveKey twoExports.mm.provisioner oneClass k = true)) :=
  ⟨twoExports_keyed, by decide, by decide, (CleanUp_spec twoExports oneClass twoExports_keyed).1⟩

/-! ## Theorems: the readOnly flag (const.go, provisioner.go) -/

theorem Char.toNat_ofNat_small (n : Nat) (h : n < 55296) : (Char.ofNat n).toNat = n := by
  unfold Char.ofNat
  have hv : n.isValidChar := Or.inl h
  simp only [hv, ↓reduceDIte]
  unfold Char.ofNatAux Char.toNat
  simp only [UInt32.toNat]
  rfl

theorem Char.toLower_eq_iff (c t : Char) (h1 : 97 ≤ t.toNat) (h2 : t.toNat ≤ 122) :
    c.toLower = t ↔ (c = t ∨ c = t.toUpper) := by
  have hup : t.toUpper = Char.ofNat (t.toNat - 32) := by
    unfold Char.toUpper
    simp [h1, h2]
  constructor
  · intro h
    unfold Char.toLower at h
    simp only at h
    split at h
    · right
      rename_i hr
      have h3 := congrArg Char.toNat h
      rw [Char.toNat_ofNat_small _ (by omega)] at h3
      rw [hup, ← h3]
      simp
    · exact Or.inl h
  · rintro (h | h)
    · subst h
      unfold Char.toLower
      simp only
      rw [if_neg (by omega)]
    · subst h
      rw [hup]
      unfold Char.toLower
      simp only
      rw [Char.toNat_ofNat_small _ (by omega), if_pos (by omega)]
      have : t.toNat - 32 + 32 = t.toNat := by omega
      rw [this]
      simp

theorem toLowerRune_eq_iff (c t : Char) (h1 : 97 ≤ t.toNat) (h2 : t.toNat ≤ 122)
    (hi : t ≠ 'i') (hk : t ≠ 'k') : toLowerRune c = t ↔ (c = t ∨ c = t.toUpper) := by
  have hup : t.toUpper = Char.ofNat (t.toNat - 32) := by
    unfold Char.toUpper
    simp [h1, h2]
  have hupn : t.toUpper.toNat = t.toNat - 32 := by
    rw [hup, Char.toNat_ofNat_small _ (by omega)]
  unfold toLowerRune
  by_cases ha : c = Char.ofNat 0x130
  · rw [if_pos ha]
    have hc : c.toNat = 304 := by rw [ha]; decide
    constructor
    · intro h; exact absurd h.symm hi
    · rintro (h | h)
      · rw [h] at hc; omega
      · rw [h, hupn] at hc; omega
  · rw [if_neg ha]
    by_cases hb : c = Char.ofNat 0x212A
    · rw [if_pos hb]
      have hc : c.toNat = 8490 := by rw [hb]; decide
      constructor
      · intro h; exact absurd h.symm hk
      · rintro (h | h)
        · rw [h] at hc; omega
        · rw [h, hupn] at hc; omega
    · rw [if_neg hb]
      exact Char.toLower_eq_iff c t h1 h2

theorem map_toLowerRune_eq_iff (word : List Char) (hw : plainLower word) (cs : List Char) :
    cs.map toLowerRune = word ↔ eqIgnoreCase cs word = true := by
  induction word generalizing cs with
  | nil =>
    cases cs with
    | nil => simp [eqIgnoreCase]
    | cons c cs => simp [eqIgnoreCase]
  | cons t ts ih =>
    cases cs with
    | nil => simp [eqIgnoreCase]
    | cons c cs =>
      have ht := hw t (List.mem_cons_self _ _)
      have hts : plainLower ts := fun x hx => hw x (List.mem_cons_of_mem _ hx)
      simp only [List.map_cons, List.cons.injEq, eqIgnoreCase, Bool.and_eq_true,
        Bool.or_eq_true, beq_iff_eq]
      rw [toLowerRune_eq_iff c t ht.1 ht.2.1 ht.2.2.1 ht.2.2.2, ih hts cs]

theorem ToLower_eq_iff (ro word : String) (hw : plainLower word.data) :
    ToLower ro = word ↔ equalsIgnoreCase ro word = true := by
  unfold ToLower equalsIgnoreCase
  rw [← map_toLowerRune_eq_iff word.data hw ro.data]
  constructor
  · intro h
    exact congrArg String.data h
  · intro h
    exact String.ext h

theorem plainLower_true : plainLower "true".data := by
  intro t ht
  simp only [List.mem_cons, List.mem_singleton, List.mem_nil_iff, or_false] at ht
  rcases ht with rfl | rfl | rfl | rfl <;> decide

theorem plainLower_false : plainLower "false".data := by
  intro t ht
  simp only [List.mem_cons, List.mem_singleton, List.mem_nil_iff, or_false] at ht
  rcases ht with rfl | rfl | rfl | rfl | rfl <;> decide

/-- C9, counterexample: a request that carries a label selector and the
parameter `readOnly = "Maybe"`.  The format check rejects the parameters,
and `Provision` returns `ErrClaimSelectorNotSupported`, not the format error. -/
theorem Provision_selector_before_readOnly :
    CheckClassNfsReadOnlyFormat
        (some [("server", "10.0.0.1"), ("exportPath", "/export"), ("readOnly", "Maybe")])
      = some (Error.badReadOnly "Maybe") ∧
    ((Sys.init "nfs" "/mnt" []).w.Provision
        ⟨"pv-1", ⟨"default", "claim", none, none, some "app=db"⟩,
          some [("server", "10.0.0.1"), ("exportPath", "/export"), ("readOnly", "Maybe")]⟩
        (NewUUID 0) ⟨true, none, none, none, true, none, none, true, none⟩ none).2
      = (none, some Error.ErrClaimSelectorNotSupported) := by
  decide

/-- C9, amended: `CheckClassNfsReadOnlyFormat` returns no error if and only
if the readOnly value is absent or empty or equals "true" or "false" up to
the case of its letters, and otherwise returns the format error for that
value; in that case `Provision`, for a claim without a selector, returns that
error and leaves the world as it was (no handler resolved, no call made);
whenever the check passes, `IsClassNfsReadOnly` is true exactly when the
value equals "true" up to case, and it is false when the key is absent. -/
theorem CheckClassNfsReadOnlyFormat_spec (pm : Params) :
    (CheckClassNfsReadOnlyFormat pm = none ↔
      (GetClassNfsReadOnly pm = "" ∨ equalsIgnoreCase (GetClassNfsReadOnly pm) "true" = true ∨
        equalsIgnoreCase (GetClassNfsReadOnly pm) "false" = true)) ∧
    (CheckClassNfsReadOnlyFormat pm ≠ none →
      CheckClassNfsReadOnlyFormat pm = some (Error.badReadOnly (GetClassNfsReadOnly pm))) ∧
    (∀ (w : World) (options : VolumeOptions) (mountDir : String) (s : MountScript)
      (mkdir : Option Error), options.Parameters = pm → options.PVC.Selector = none →
      CheckClassNfsReadOnlyFormat pm ≠ none →
      w.Provision options mountDir s mkdir
        = (w, none, some (Error.badReadOnly (GetClassNfsReadOnly pm)))) ∧
    (CheckClassNfsReadOnlyFormat pm = none →
      (IsClassNfsReadOnly pm = true ↔ equalsIgnoreCase (GetClassNfsReadOnly pm) "true" = true)) ∧
    ((∀ l, pm = some l → l.lookup LabelKeyNfsReadOnly = none) →
      GetClassNfsReadOnly pm = "" ∧ IsClassNfsReadOnly pm = false) := by
  have hbad : CheckClassNfsReadOnlyFormat pm ≠ none →
      CheckClassNfsReadOnlyFormat pm = some (Error.badReadOnly (GetClassNfsReadOnly pm)) := by
    unfold CheckClassNfsReadOnlyFormat
    simp only
    intro h
    split at h
    · exact absurd rfl h
    · split at h
      · exact absurd rfl h
      · rename_i h1 h2
        rw [if_neg h1, if_neg h2]
  have htrue : equalsIgnoreCase (GetClassNfsReadOnly pm) "true" = true →
      GetClassNfsReadOnly pm ≠ "" := by
    intro h he
    rw [he] at h
    exact absurd h (by decide)
  refine ⟨?_, hbad, ?_, ?_, ?_⟩
  · unfold CheckClassNfsReadOnlyFormat
    simp only
    rw [← ToLower_eq_iff _ _ plainLower_true, ← ToLower_eq_iff _ _ plainLower_false,
      ← len_eq_zero_iff]
    constructor
    · intro h
      split at h
      · rename_i h1; exact Or.inl h1
      · split at h
        · rename_i h2; exact Or.inr h2
        · exact absurd h (by simp)
    · rintro (h | h)
      · rw [if_pos h]
      · by_cases h1 : len (GetClassNfsReadOnly pm) = 0
        · rw [if_pos h1]
        · rw [if_neg h1, if_pos h]
  · intro w options mountDir s mkdir hp hsel hc
    have := hbad hc
    unfold World.Provision
    rw [hsel, hp, this]
    simp
  · intro hc
    unfold IsClassNfsReadOnly
    simp only [Bool.and_eq_true, decide_eq_true_eq]
    rw [ToLower_eq_iff _ _ plainLower_true]
    constructor
    · intro h; exact h.2
    · intro h
      refine ⟨?_, h⟩
      have := htrue h
      rcases Nat.eq_zero_or_pos (len (GetClassNfsReadOnly pm)) with h0 | h0
      · exact absurd ((len_eq_zero_iff _).mp h0) this
      · exact h0
  · intro h
    have he : GetClassNfsReadOnly pm = "" := by
      unfold GetClassNfsReadOnly Params.index
      cases pm with
      | none => rfl
      | some l => simp [h l rfl]
    refine ⟨he, ?_⟩
    unfold IsClassNfsReadOnly
    simp only [he]
    decide

/-- C9, witness: the parameters with `readOnly = "Maybe"` on a claim without
a selector, against an empty cache. -/
theorem CheckClassNfsReadOnlyFormat_spec_witness :
    CheckClassNfsReadOnlyFormat
        (some [("server", "10.0.0.1"), ("exportPath", "/export"), ("readOnly", "Maybe")])
      = some (Error.badReadOnly "Maybe") ∧
    (Sys.init "nfs" "/mnt" []).w.Provision
        ⟨"pv-1", ⟨"default", "claim", none, none, none⟩,
          some [("server", "10.0.0.1"), ("exportPath", "/export"), ("readOnly", "Maybe")]⟩
        (NewUUID 0) ⟨true, none, none, none, true, none, none, true, none⟩ none
      = ((Sys.init "nfs" "/mnt" []).w, none, some (Error.badReadOnly "Maybe")) :=
  ⟨by decide,
   (CheckClassNfsReadOnlyFormat_spec
      (some [("server", "10.0.0.1"), ("exportPath", "/export"), ("readOnly", "Maybe")])).2.2.1
      (Sys.init "nfs" "/mnt" []).w _ _ _ _ rfl rfl (by decide)⟩

/-! ## Theorems: `filepath.Clean`, `Join`, `Dir` and `Base` on a clean path -/

theorem length_dropWhile_le (p : Char → Bool) (l : List Char) :
    (l.dropWhile p).length ≤ l.length := by
  induction l with
  | nil => simp
  | cons a l ih =>
    rw [List.dropWhile_cons]
    split
    · simp only [List.length_cons]; omega
    · exact Nat.le_refl _

theorem cleanStep_length (rooted : Bool) (c : Char) (rest : List Char) (out : lazybuf)
    (dotdot : Nat) : (cleanStep rooted c rest out dotdot).1.length ≤ rest.length := by
  unfold cleanStep
  split
  · exact Nat.le_refl _
  · rename_i hc
    split
    · exact Nat.le_refl _
    · split
      · split
        · simp only [List.length_drop]; omega
        · split <;> (simp only [List.length_drop]; omega)
      · simp only [List.dropWhile_cons, hc, Bool.not_false, ↓reduceIte]
        exact length_dropWhile_le _ _

theorem cleanLoop_fuel_succ (rooted : Bool) (f : Nat) :
    ∀ (path : List Char) (out : lazybuf) (dotdot : Nat), path.length ≤ f →
      cleanLoop rooted (f + 1) path out dotdot = cleanLoop rooted f path out dotdot := by
  induction f with
  | zero =>
    intro path out dd h
    have hp : path = [] := List.length_eq_zero.mp (Nat.le_zero.mp h)
    subst hp
    simp [cleanLoop]
  | succ f ih =>
    intro path out dd h
    cases path with
    | nil => simp [cleanLoop]
    | cons c rest =>
      have hr : rest.length ≤ f := by simpa using h
      have hl := cleanStep_length rooted c rest out dd
      show cleanLoop rooted (f + 1) (cleanStep rooted c rest out dd).1 _ _
        = cleanLoop rooted f (cleanStep rooted c rest out dd).1 _ _
      exact ih _ _ _ (Nat.le_trans hl hr)

theorem cleanLoop_fuel (rooted : Bool) (path : List Char) (out : lazybuf) (dotdot : Nat)
    (f : Nat) (h : path.length ≤ f) :
    cleanLoop rooted f path out dotdot = cleanLoop rooted path.length path out dotdot := by
  induction f with
  | zero =>
    have hp : path = [] := List.length_eq_zero.mp (Nat.le_zero.mp h)
    subst hp
    rfl
  | succ f ih =>
    by_cases hf : path.length ≤ f
    · rw [cleanLoop_fuel_succ rooted f path out dotdot hf]
      exact ih hf
    · have : path.length = f + 1 := by omega
      rw [this]

theorem takeWhile_append_sep (A S : List Char) (hne : S ≠ []) (hh : S.headD ' ' = Separator) :
    (A ++ S).takeWhile (fun x => !IsPathSeparator x)
      = A.takeWhile (fun x => !IsPathSeparator x) := by
  induction A with
  | nil =>
    cases S with
    | nil => exact absurd rfl hne
    | cons s S =>
      simp only [List.headD_cons] at hh
      simp [hh, IsPathSeparator]
  | cons a A ih =>
    simp only [List.cons_append, List.takeWhile_cons, ih]

theorem dropWhile_append_sep (A S : List Char) (hne : S ≠ []) (hh : S.headD ' ' = Separator) :
    (A ++ S).dropWhile (fun x => !IsPathSeparator x)
      = A.dropWhile (fun x => !IsPathSeparator x) ++ S := by
  induction A with
  | nil =>
    cases S with
    | nil => exact absurd rfl hne
    | cons s S =>
      simp only [List.headD_cons] at hh
      simp [hh, IsPathSeparator]
  | cons a A ih =>
    simp only [List.cons_append, List.dropWhile_cons, ih]
    split <;> rfl

theorem cleanStep_append (rooted : Bool) (c : Char) (rest : List Char) (out : lazybuf)
    (dd : Nat) (S : List Char) (hne : S ≠ []) (hh : S.headD ' ' = Separator) :
    cleanStep rooted c (rest ++ S) out dd
      = ((cleanStep rooted c rest out dd).1 ++ S, (cleanStep rooted c rest out dd).2.1,
          (cleanStep rooted c rest out dd).2.2) := by
  have hSe : S.isEmpty = false := by
    cases S with
    | nil => exact absurd rfl hne
    | cons s S => rfl
  have hsep : IsPathSeparator Separator = true := by decide
  have hdot : (Separator == '.') = false := by decide
  have h2 : ∀ r : List Char, ((r ++ S).isEmpty || IsPathSeparator ((r ++ S).headD ' '))
      = (r.isEmpty || IsPathSeparator (r.headD ' ')) := by
    intro r
    cases r with
    | nil =>
      simp only [List.nil_append, hSe, hh, hsep, List.isEmpty_nil, Bool.or_true, Bool.true_or]
    | cons d r2 => rfl
  have h3 : (c == '.' && (rest ++ S).headD ' ' == '.' && !(rest ++ S).isEmpty &&
        (((rest ++ S).drop 1).isEmpty || IsPathSeparator (((rest ++ S).drop 1).headD ' ')))
      = (c == '.' && rest.headD ' ' == '.' && !rest.isEmpty &&
        ((rest.drop 1).isEmpty || IsPathSeparator ((rest.drop 1).headD ' '))) := by
    cases rest with
    | nil =>
      simp only [List.nil_append, hh, hdot, Bool.and_false, Bool.false_and, List.isEmpty_nil,
        Bool.not_true]
    | cons d r2 =>
      have := h2 r2
      simp only [List.cons_append, List.headD_cons, List.isEmpty_cons, Bool.not_false,
        Bool.and_true, List.drop_succ_cons, List.drop_zero, this]
  have htw := takeWhile_append_sep (c :: rest) S hne hh
  have hdw := dropWhile_append_sep (c :: rest) S hne hh
  rw [List.cons_append] at htw hdw
  unfold cleanStep
  rw [h2, h3, htw, hdw]
  by_cases hc : IsPathSeparator c = true
  · simp only [hc, ↓reduceIte]
  · simp only [hc, Bool.false_eq_true, ↓reduceIte]
    split
    · rfl
    · split
      · rename_i hb3
        have hrest : (rest ++ S).drop 1 = rest.drop 1 ++ S := by
          cases rest with
          | nil => simp at hb3
          | cons d r2 => rfl
        rw [hrest]
        split
        · rfl
        · split <;> rfl
      · rfl

/-- The main loop of `Clean` on a path followed by a suffix that starts with
a separator: the loop runs on the path and then on the suffix, provided the
run on the suffix does not read `dotdot`. -/
theorem cleanLoop_append (rooted : Bool) (S : List Char) (k : Nat) (hk : S.length ≤ k)
    (hne : S ≠ []) (hh : S.headD ' ' = Separator)
    (hS : ∀ out dd, cleanLoop rooted k S out dd = cleanLoop rooted k S out 0) :
    ∀ (n : Nat) (A : List Char) (out : lazybuf) (dd : Nat), A.length ≤ n →
      cleanLoop rooted (n + k) (A ++ S) out dd
        = cleanLoop rooted k S (cleanLoop rooted n A out dd) 0 := by
  have hnil : ∀ (n : Nat) (out : lazybuf) (dd : Nat),
      cleanLoop rooted (n + k) S out dd
        = cleanLoop rooted k S (cleanLoop rooted n [] out dd) 0 := by
    intro n out dd
    have e1 : cleanLoop rooted n [] out dd = out := by cases n <;> rfl
    rw [e1, cleanLoop_fuel rooted S out dd (n + k) (by omega),
      ← cleanLoop_fuel rooted S out dd k hk]
    exact hS out dd
  intro n
  induction n with
  | zero =>
    intro A out dd h
    have hA : A = [] := List.length_eq_zero.mp (Nat.le_zero.mp h)
    subst hA
    exact hnil 0 out dd
  | succ n ih =>
    intro A out dd h
    cases A with
    | nil => exact hnil (n + 1) out dd
    | cons c rest =>
      have hr : rest.length ≤ n := by simpa using h
      have hl := cleanStep_length rooted c rest out dd
      have e : n + 1 + k = (n + k) + 1 := by omega
      rw [e, List.cons_append]
      show cleanLoop rooted (n + k) (cleanStep rooted c (rest ++ S) out dd).1
          (cleanStep rooted c (rest ++ S) out dd).2.1 (cleanStep rooted c (rest ++ S) out dd).2.2
        = cleanLoop rooted k S (cleanLoop rooted n (cleanStep rooted c rest out dd).1
          (cleanStep rooted c rest out dd).2.1 (cleanStep rooted c rest out dd).2.2) 0
      rw [cleanStep_append rooted c rest out dd S hne hh]
      exact ih _ _ _ (Nat.le_trans hl hr)

theorem takeWhile_plain (P : List Char) (h : ∀ x ∈ P, IsPathSeparator x = false) :
    P.takeWhile (fun x => !IsPathSeparator x) = P := by
  rw [List.takeWhile_eq_self_iff]
  intro x hx
  simp [h x hx]

theorem dropWhile_plain (P : List Char) (h : ∀ x ∈ P, IsPathSeparator x = false) :
    P.dropWhile (fun x => !IsPathSeparator x) = [] := by
  rw [List.dropWhile_eq_nil_iff]
  intro x hx
  simp [h x hx]

theorem cleanStep_plain (rooted : Bool) (c : Char) (rest : List Char) (out : lazybuf)
    (dd : Nat) (hP : plainElem (c :: rest)) :
    cleanStep rooted c rest out dd = ([], (slashIfNeeded rooted out).appendAll (c :: rest), dd) := by
  obtain ⟨_, hsep, h1, h2⟩ := hP
  have hc : IsPathSeparator c = false := hsep c (List.mem_cons_self _ _)
  have hb2 : (c == '.' && (rest.isEmpty || IsPathSeparator (rest.headD ' '))) = false := by
    cases rest with
    | nil =>
      have : c ≠ '.' := fun h => h1 (by rw [h])
      simp [this]
    | cons d r2 =>
      have hd : IsPathSeparator d = false := hsep d (by simp)
      simp only [List.isEmpty_cons, List.headD_cons, hd, Bool.or_self, Bool.and_false]
  have hb3 : (c == '.' && rest.headD ' ' == '.' && !rest.isEmpty &&
      ((rest.drop 1).isEmpty || IsPathSeparator ((rest.drop 1).headD ' '))) = false := by
    cases rest with
    | nil => simp only [List.isEmpty_nil, Bool.not_true, Bool.and_false, Bool.false_and]
    | cons d r2 =>
      cases r2 with
      | nil =>
        have : ¬ (c = '.' ∧ d = '.') := fun h => h2 (by rw [h.1, h.2])
        simp only [List.headD_cons, List.isEmpty_cons, Bool.not_false, Bool.and_true,
          List.drop_succ_cons, List.drop_zero, List.isEmpty_nil, Bool.true_or]
        simpa using this
      | cons x r3 =>
        have hx : IsPathSeparator x = false := hsep x (by simp)
        simp only [List.headD_cons, List.isEmpty_cons, Bool.not_false, Bool.and_true,
          List.drop_succ_cons, List.drop_zero, hx, Bool.or_self, Bool.and_false]
  unfold cleanStep
  rw [hb2, hb3, takeWhile_plain _ hsep, dropWhile_plain _ hsep]
  simp only [hc, Bool.false_eq_true, ↓reduceIte, slashIfNeeded]

theorem cleanLoop_nil (rooted : Bool) (f : Nat) (out : lazybuf) (dd : Nat) :
    cleanLoop rooted f [] out dd = out := by
  cases f <;> rfl

theorem cleanLoop_sep_plain (rooted : Bool) (P : List Char) (hP : plainElem P) (out : lazybuf)
    (dd : Nat) :
    cleanLoop rooted (Separator :: P).length (Separator :: P) out dd
      = (slashIfNeeded rooted out).appendAll P := by
  cases P with
  | nil => exact absurd rfl hP.1
  | cons c rest =>
    show cleanLoop rooted ((c :: rest).length) (cleanStep rooted Separator (c :: rest) out dd).1
        (cleanStep rooted Separator (c :: rest) out dd).2.1
        (cleanStep rooted Separator (c :: rest) out dd).2.2 = _
    have hs : cleanStep rooted Separator (c :: rest) out dd = (c :: rest, out, dd) := by
      unfold cleanStep
      rw [if_pos (by decide)]
    rw [hs]
    show cleanLoop rooted rest.length (cleanStep rooted c rest out dd).1
        (cleanStep rooted c rest out dd).2.1 (cleanStep rooted c rest out dd).2.2 = _
    rw [cleanStep_plain rooted c rest out dd hP]
    exact cleanLoop_nil _ _ _ _

theorem cleanLoop_sep (rooted : Bool) (out : lazybuf) (dd : Nat) :
    cleanLoop rooted [Separator].length [Separator] out dd = out := by
  show cleanLoop rooted 0 (cleanStep rooted Separator [] out dd).1
      (cleanStep rooted Separator [] out dd).2.1 (cleanStep rooted Separator [] out dd).2.2 = _
  have hs : cleanStep rooted Separator [] out dd = ([], out, dd) := by
    unfold cleanStep
    rw [if_pos (by decide)]
  rw [hs]
  rfl

/-- The buffer of `Clean` on a non-empty path followed by a suffix that
starts with a separator and whose run does not read `dotdot`. -/
theorem cleanBuf_append (E S : List Char) (hE : E ≠ []) (hne : S ≠ [])
    (hh : S.headD ' ' = Separator)
    (hS : ∀ out dd, cleanLoop (IsPathSeparator (E.headD ' ')) S.length S out dd
      = cleanLoop (IsPathSeparator (E.headD ' ')) S.length S out 0) :
    cleanBuf (E ++ S)
      = cleanLoop (IsPathSeparator (E.headD ' ')) S.length S (cleanBuf E) 0 := by
  cases E with
  | nil => exact absurd rfl hE
  | cons a E0 =>
    unfold cleanBuf
    simp only [List.cons_append, List.headD_cons, List.length_cons, List.length_append] at hS ⊢
    by_cases ha : IsPathSeparator a = true
    · simp only [ha, ↓reduceIte, List.drop_succ_cons, List.drop_zero] at hS ⊢
      have e : E0.length + S.length + 1 = (E0.length + 1) + S.length := by omega
      rw [e]
      exact cleanLoop_append true S S.length (Nat.le_refl _) hne hh hS (E0.length + 1) E0 _ _
        (by omega)
    · simp only [ha, Bool.false_eq_true, ↓reduceIte, List.drop_zero] at hS ⊢
      have e : E0.length + S.length + 1 = (E0.length + 1) + S.length := by omega
      rw [e, ← List.cons_append]
      exact cleanLoop_append false S S.length (Nat.le_refl _) hne hh hS (E0.length + 1)
        (a :: E0) _ _ (by simp)

theorem Clean_mk (E : List Char) (hE : E ≠ []) : Clean (String.mk E) = String.mk (cleanChars E) := by
  unfold Clean cleanChars
  cases E with
  | nil => exact absurd rfl hE
  | cons a E0 => rfl

theorem lazybuf.w_appendAll (cs : List Char) (b : lazybuf) :
    (b.appendAll cs).w = b.w + cs.length := by
  induction cs generalizing b with
  | nil => rfl
  | cons c cs ih =>
    have := ih (b.append c)
    simp only [lazybuf.appendAll, List.foldl_cons, List.length_cons] at this ⊢
    rw [this, lazybuf.w_append]
    omega

theorem cleanChars_append_sep (E : List Char) (hE : E ≠ []) :
    cleanChars (E ++ [Separator]) = cleanChars E := by
  unfold cleanChars
  rw [cleanBuf_append E [Separator] hE (by simp) rfl
    (fun out dd => by rw [cleanLoop_sep, cleanLoop_sep]), cleanLoop_sep]

theorem cleanBuf_join (E P : List Char) (hE : E ≠ []) (hP : plainElem P) :
    cleanBuf (E ++ Separator :: P)
      = (slashIfNeeded (IsPathSeparator (E.headD ' ')) (cleanBuf E)).appendAll P := by
  rw [cleanBuf_append E (Separator :: P) hE (by simp) rfl
    (fun out dd => by rw [cleanLoop_sep_plain _ P hP, cleanLoop_sep_plain _ P hP]),
    cleanLoop_sep_plain _ P hP]

/-- On a clean path `E` and a plain element `P`, `Clean` of `E/P` is `P`
behind a prefix that is empty or ends in a separator and that cleans to `E`. -/
theorem cleanChars_join (E P : List Char) (hE : E ≠ []) (hc : cleanChars E = E)
    (hP : plainElem P) :
    ∃ X : List Char, cleanChars (E ++ Separator :: P) = X ++ P ∧
      (X = [] ∨ ∃ Y, X = Y ++ [Separator]) ∧ Clean (String.mk X) = String.mk E := by
  have hok := cleanBuf_ok E
  have hPlen : P.length ≠ 0 := fun h => hP.1 (List.length_eq_zero.mp h)
  have hcc : ∀ b : lazybuf, cleanBuf (E ++ Separator :: P) = b.appendAll P →
      cleanChars (E ++ Separator :: P) = (b.appendAll P).string := by
    intro b hb
    unfold cleanChars
    rw [hb]
    have : ((b.appendAll P).w == 0) = false := by
      rw [lazybuf.w_appendAll]
      simp only [beq_eq_false_iff_ne, ne_eq]
      omega
    rw [this]
    rfl
  have hj := cleanBuf_join E P hE hP
  by_cases hw : (cleanBuf E).w = 0
  · -- the clean path is "."
    have hs : (cleanBuf E).string = [] :=
      List.length_eq_zero.mp (by rw [lazybuf.length_string _ hok, hw])
    have hE1 : E = ['.'] := by
      rw [← hc]
      unfold cleanChars
      simp only [hw, beq_self_eq_true, ↓reduceIte]
      rw [lazybuf.string_append _ _ hok, hs]
      rfl
    have hsl : slashIfNeeded (IsPathSeparator (E.headD ' ')) (cleanBuf E) = cleanBuf E := by
      rw [hE1]
      unfold slashIfNeeded
      rw [← hE1, hw]
      rw [hE1]
      rfl
    rw [hsl] at hj
    refine ⟨[], ?_, Or.inl rfl, ?_⟩
    · rw [hcc _ hj, lazybuf.string_appendAll P _ hok, hs]
    · rw [hE1]
      rfl
  · have hs : (cleanBuf E).string = E := by
      have h := hc
      unfold cleanChars at h
      have hb : ((cleanBuf E).w == 0) = false := by simpa using hw
      simp only [hb, Bool.false_eq_true, ↓reduceIte] at h
      exact h
    by_cases hr : IsPathSeparator (E.headD ' ') = true ∧ (cleanBuf E).w = 1
    · -- the clean path is "/"
      have hlen : E.length = 1 := by
        rw [← hs, lazybuf.length_string _ hok]
        exact hr.2
      have hE1 : E = [Separator] := by
        cases E with
        | nil => exact absurd rfl hE
        | cons a E0 =>
          have h0 : E0 = [] := List.length_eq_zero.mp (by simpa using hlen)
          have ha : a = Separator := by simpa [IsPathSeparator] using hr.1
          rw [h0, ha]
      have hsl : slashIfNeeded (IsPathSeparator (E.headD ' ')) (cleanBuf E) = cleanBuf E := by
        unfold slashIfNeeded
        rw [hr.1, hr.2]
        rfl
      rw [hsl] at hj
      refine ⟨[Separator], ?_, Or.inr ⟨[], rfl⟩, ?_⟩
      · rw [hcc _ hj, lazybuf.string_appendAll P _ hok, hs, hE1]
      · rw [hE1]
        decide
    · have hsl : slashIfNeeded (IsPathSeparator (E.headD ' ')) (cleanBuf E)
          = (cleanBuf E).append Separator := by
        unfold slashIfNeeded
        rw [if_pos]
        cases hb : IsPathSeparator (E.headD ' ') with
        | true =>
          have : (cleanBuf E).w ≠ 1 := fun h => hr ⟨hb, h⟩
          simpa using this
        | false => simpa using hw
      rw [hsl] at hj
      refine ⟨E ++ [Separator], ?_, Or.inr ⟨E, rfl⟩, ?_⟩
      · rw [hcc _ hj, lazybuf.string_appendAll P _ (lazybuf.ok_append _ _ hok),
          lazybuf.string_append _ _ hok, hs]
      · rw [Clean_mk _ (by simp), cleanChars_append_sep E hE, hc]

theorem lastSeparator_append_plain (X P : List Char) (hP : ∀ x ∈ P, IsPathSeparator x = false)
    (j : Nat) (hj : j ≤ P.length) :
    lastSeparator (X ++ P) (X.length + j) = lastSeparator (X ++ P) X.length := by
  induction j with
  | zero => rfl
  | succ j ih =>
    have hlt : j < P.length := by omega
    have hget : (X ++ P).getD (X.length + j) ' ' = P.getD j ' ' := by
      rw [List.getD_append_right _ _ _ _ (by omega)]
      congr 1
      omega
    have hmem : P.getD j ' ' ∈ P := by
      rw [List.getD_eq_getElem _ _ hlt]
      exact List.getElem_mem _
    have hstep : lastSeparator (X ++ P) (X.length + (j + 1))
        = if (!IsPathSeparator ((X ++ P).getD (X.length + j) ' ')) = true
          then lastSeparator (X ++ P) (X.length + j) else X.length + j + 1 := rfl
    rw [hstep, hget, hP _ hmem]
    simp only [Bool.not_false, ↓reduceIte]
    exact ih (by omega)

theorem lastSeparator_front (X P : List Char) (hX : X = [] ∨ ∃ Y, X = Y ++ [Separator]) :
    lastSeparator (X ++ P) X.length = X.length := by
  rcases hX with h | ⟨Y, h⟩
  · rw [h]
    rfl
  · rw [h]
    have hget : (Y ++ [Separator] ++ P).getD Y.length ' ' = Separator := by
      rw [List.append_assoc, List.getD_append_right _ _ _ _ (Nat.le_refl _)]
      simp
    have hstep : lastSeparator (Y ++ [Separator] ++ P) (Y ++ [Separator]).length
        = if (!IsPathSeparator ((Y ++ [Separator] ++ P).getD Y.length ' ')) = true
          then lastSeparator (Y ++ [Separator] ++ P) Y.length else Y.length + 1 := by
      simp only [List.length_append, List.length_singleton]
      rfl
    rw [hstep, hget]
    simp only [List.length_append, List.length_singleton]
    rfl

theorem Dir_of_front (X P : List Char) (hX : X = [] ∨ ∃ Y, X = Y ++ [Separator])
    (hP : ∀ x ∈ P, IsPathSeparator x = false) :
    Dir (String.mk (X ++ P)) = Clean (String.mk X) := by
  unfold Dir
  simp only [List.length_append]
  rw [lastSeparator_append_plain X P hP P.length (Nat.le_refl _), lastSeparator_front X P hX]
  simp

theorem Base_of_front (X P : List Char) (hX : X = [] ∨ ∃ Y, X = Y ++ [Separator])
    (hP : ∀ x ∈ P, IsPathSeparator x = false) (hne : P ≠ []) :
    Base (String.mk (X ++ P)) = String.mk P := by
  have hstrip : stripTrailing (X ++ P) (X ++ P).length = (X ++ P).length := by
    obtain ⟨Q, z, hQ⟩ : ∃ Q z, P = Q ++ [z] := by
      rcases List.eq_nil_or_concat P with h | ⟨Q, z, h⟩
      · exact absurd h hne
      · exact ⟨Q, z, by simpa using h⟩
    have hz : IsPathSeparator z = false := hP z (by rw [hQ]; simp)
    have hget : (X ++ P).getD (X.length + Q.length) ' ' = z := by
      rw [hQ, ← List.append_assoc, List.getD_append_right _ _ _ _ (by simp)]
      simp
    have hl : (X ++ P).length = X.length + Q.length + 1 := by
      rw [hQ]
      simp only [List.length_append, List.length_singleton]
      omega
    have hstep : stripTrailing (X ++ P) (X.length + Q.length + 1)
        = if IsPathSeparator ((X ++ P).getD (X.length + Q.length) ' ') = true
          then stripTrailing (X ++ P) (X.length + Q.length) else X.length + Q.length + 1 := rfl
    rw [hl, hstep, hget, hz]
    rfl
  have hlast : lastSeparator (X ++ P) (X ++ P).length = X.length := by
    simp only [List.length_append]
    rw [lastSeparator_append_plain X P hP P.length (Nat.le_refl _), lastSeparator_front X P hX]
  have hemp : (X ++ P).isEmpty = false := by
    cases X with
    | nil =>
      cases P with
      | nil => exact absurd rfl hne
      | cons a P => rfl
    | cons a X => rfl
  have hPemp : P.isEmpty = false := by
    cases P with
    | nil => exact absurd rfl hne
    | cons a P => rfl
  unfold Base
  simp only [hemp, Bool.false_eq_true, ↓reduceIte, hstrip, List.take_length, hlast]
  by_cases hx : X.length > 0
  · simp only [hx, ↓reduceIte, List.drop_left, hPemp, Bool.false_eq_true]
  · have : X = [] := List.length_eq_zero.mp (by omega)
    subst this
    simp only [List.length_nil, gt_iff_lt, Nat.lt_irrefl, ↓reduceIte, List.nil_append, hPemp,
      Bool.false_eq_true]

/-- C8, counterexample: with the export path `/export/`, which is non-empty
but not clean, `Provision` records `/export/pv` and `Delete` derives the
export path `/export`, hence another key; with the separator-free name `..`
under `/export/data`, `Delete` derives `/` and `export`. -/
theorem Dir_Join_not_exportPath :
    Join ["/export/", "pv"] = "/export/pv" ∧
    Dir (Join ["/export/", "pv"]) = "/export" ∧
    Dir (Join ["/export/", "pv"]) ≠ "/export/" ∧
    makeNfsPathKey "10.0.0.1" (Dir (Join ["/export/", "pv"]))
      ≠ makeNfsPathKey "10.0.0.1" "/export/" ∧
    Separator ∉ "..".data ∧
    Dir (Join ["/export/data", ".."]) = "/" ∧ Base (Join ["/export/data", ".."]) = "export" := by
  decide

/-- C8, amended: for every server, every export path that is clean
(`filepath.Clean(exportPath) == exportPath`, which makes it non-empty) and
every directory name that is non-empty, contains no path separator and is
neither "." nor "..", the path `filepath.Join(exportPath, pvName)` that
`Provision` records gives back `filepath.Dir(path) == exportPath` and
`filepath.Base(path) == pvName`, so `Delete` resolves the key that `Provision`
used and targets the same directory name. -/
theorem Dir_Base_Join_roundtrip (server exportPath pvName : String)
    (hclean : Clean exportPath = exportPath) (hne : pvName ≠ "")
    (hsep : Separator ∉ pvName.data) (hdot : pvName ≠ ".") (hdotdot : pvName ≠ "..") :
    Dir (Join [exportPath, pvName]) = exportPath ∧
    Base (Join [exportPath, pvName]) = pvName ∧
    makeNfsPathKey server (Dir (Join [exportPath, pvName]))
      = makeNfsPathKey server exportPath := by
  have hE : exportPath.data ≠ [] := by
    rw [← hclean]
    exact Clean_data_ne_nil _
  have hP : plainElem pvName.data := by
    refine ⟨fun h => hne (String.ext h), ?_, fun h => hdot (String.ext h),
      fun h => hdotdot (String.ext h)⟩
    intro x hx
    have : x ≠ Separator := fun h => hsep (h ▸ hx)
    simpa [IsPathSeparator] using this
  have hc : cleanChars exportPath.data = exportPath.data := by
    have h := congrArg String.data hclean
    rw [show exportPath = String.mk exportPath.data from rfl, Clean_mk _ hE] at h
    exact h
  have hEe : exportPath.data.isEmpty = false := by
    cases hd : exportPath.data with
    | nil => exact absurd hd hE
    | cons a l => rfl
  have hjoin : Join [exportPath, pvName]
      = String.mk (cleanChars (exportPath.data ++ Separator :: pvName.data)) := by
    unfold Join
    rw [hEe]
    simp only [Bool.false_eq_true, ↓reduceIte, stringsJoin]
    rw [← Clean_mk _ (by simp)]
    congr 1
    apply String.ext
    simp [String.data_append, String.singleton]
  obtain ⟨X, hX1, hX2, hX3⟩ := cleanChars_join exportPath.data pvName.data hE hc hP
  have hdir : Dir (Join [exportPath, pvName]) = exportPath := by
    rw [hjoin, hX1, Dir_of_front X pvName.data hX2 hP.2.1, hX3]
  refine ⟨hdir, ?_, by rw [hdir]⟩
  rw [hjoin, hX1, Base_of_front X pvName.data hX2 hP.2.1 hP.1]

/-- C8, witness: the export path `/export/data` and the directory name
`default-claim-pv-1`. -/
theorem Dir_Base_Join_roundtrip_witness :
    Clean "/export/data" = "/export/data" ∧
    Dir (Join ["/export/data", "default-claim-pv-1"]) = "/export/data" ∧
    Base (Join ["/export/data", "default-claim-pv-1"]) = "default-claim-pv-1" ∧
    makeNfsPathKey "10.0.0.1" (Dir (Join ["/export/data", "default-claim-pv-1"]))
      = makeNfsPathKey "10.0.0.1" "/export/data" :=
  ⟨by decide,
   Dir_Base_Join_roundtrip "10.0.0.1" "/export/data" "default-claim-pv-1" (by decide)
     (by decide) (by decide) (by decide) (by decide)⟩

/-! ## Theorems: requests, sweeps and unmounts interleaved -/

theorem MountHandler.GetKey_Mount (mh : MountHandler) (mountBase : String) (opts : List String)
    (mountDir : String) (s : MountScript) :
    (mh.Mount mountBase opts mountDir s).1.GetKey = mh.GetKey := by
  rcases MountHandler.Mount_fst mh mountBase opts mountDir s with h | ⟨h, _⟩
  · rw [h]
  · rw [h]
    rfl

theorem MountHandler.status_Mount_New (mh : MountHandler) (mountBase : String)
    (opts : List String) (mountDir : String) (s : MountScript) (h0 : mh.status = MountStatusNew) :
    (mh.Mount mountBase opts mountDir s).1.status ≠ MountStatusUnmounted := by
  rcases MountHandler.Mount_fst mh mountBase opts mountDir s with h | ⟨h, _⟩
  · rw [h, h0]; decide
  · rw [h]
    show MountStatusMounted ≠ MountStatusUnmounted
    decide

theorem MountHandler.GetKey_Unmount (mh : MountHandler) (s : UnmountScript) :
    (mh.Unmount s).1.GetKey = mh.GetKey := by
  rcases MountHandler.Unmount_fst mh s with h | ⟨_, _, h⟩
  · rw [h]
  · rw [h]
    rfl

theorem Sys.Inv_init (prov base k : String) (opts : List String) :
    (Sys.init prov base opts).Inv prov k where
  prov_eq := rfl
  keyed := by intro k1 p h; simp [Sys.init] at h
  inUse_lt := by intro h hh; simp [Sys.init] at hh
  spawned_lt := by intro h hh; simp [Sys.init] at hh
  spawned_free := by intro h _ hh; simp [Sys.init] at hh
  single := by intro h _ hh; simp [Sys.init] at hh
  unmounted_free := by intro h hh; simp [Sys.init] at hh

/-- A cache hit keeps the invariant. -/
theorem Sys.Inv_hit (prov k : String) (σ : Sys) (hI : σ.Inv prov k) (key : String) (mh : Ptr)
    (hget : σ.w.getCache key = some mh) :
    Sys.Inv prov k { w := σ.w, inUse := mh :: σ.inUse } := by
  have hmem := mapGet_some_mem _ _ _ hget
  have hkey := hI.keyed key mh hmem
  have hne : ∀ h, (σ.w.heap h).GetKey = k → σ.w.getCache k ≠ some h → h ≠ mh := by
    intro h hk hn he
    subst he
    rw [hkey.1] at hk
    subst hk
    exact hn hget
  refine ⟨hI.prov_eq, hI.keyed, ?_, hI.spawned_lt, ?_, ?_, ?_⟩
  · intro h hh
    rcases List.mem_cons.mp hh with rfl | hh
    · exact hkey.2
    · exact hI.inUse_lt h hh
  · intro h hk hs
    have := hI.spawned_free h hk hs
    refine ⟨?_, this.2⟩
    intro hh
    rcases List.mem_cons.mp hh with he | hh
    · exact hne h hk this.2 he
    · exact this.1 hh
  · intro h hk hh hn
    have hne1 := hne h hk hn
    have hin : h ∈ σ.inUse := by
      rcases List.mem_cons.mp hh with he | hh
      · exact absurd he hne1
      · exact hh
    have := hI.single h hk hin hn
    show List.count h (mh :: σ.inUse) ≤ 1
    rw [List.count_cons_of_ne hne1]
    exact this
  · intro h hlt hk hs
    have := hI.unmounted_free h hlt hk hs
    refine ⟨?_, this.2⟩
    intro hh
    rcases List.mem_cons.mp hh with he | hh
    · exact hne h hk this.2 he
    · exact this.1 hh

/-- A cache miss, which allocates a handler that is not Unmounted and hands
it out or drops it, keeps the invariant. -/
theorem Sys.Inv_miss (prov k : String) (σ : Sys) (hI : σ.Inv prov k) (mh : MountHandler)
    (tr : List Call) (inUse : List Ptr) (hst : mh.status ≠ MountStatusUnmounted)
    (hin : inUse = σ.inUse ∨ inUse = σ.w.next :: σ.inUse) :
    Sys.Inv prov k
      { w := { σ.w with heap := Function.update σ.w.heap σ.w.next mh, next := σ.w.next + 1,
                        trace := tr },
        inUse := inUse } := by
  have hold : ∀ q, q < σ.w.next → Function.update σ.w.heap σ.w.next mh q = σ.w.heap q := by
    intro q hq
    exact Function.update_noteq (Nat.ne_of_lt hq) _ _
  have hfresh : σ.w.next ∉ σ.inUse := fun h => absurd (hI.inUse_lt _ h) (Nat.lt_irrefl _)
  have hsub : ∀ h, h ∈ inUse → h = σ.w.next ∨ h ∈ σ.inUse := by
    intro h hh
    rcases hin with e | e
    · rw [e] at hh; exact Or.inr hh
    · rw [e] at hh
      rcases List.mem_cons.mp hh with e1 | e1
      · exact Or.inl e1
      · exact Or.inr e1
  refine ⟨hI.prov_eq, ?_, ?_, ?_, ?_, ?_, ?_⟩
  · intro k1 p hp
    have := hI.keyed k1 p hp
    dsimp only
    rw [hold p this.2]
    exact ⟨this.1, Nat.lt_succ_of_lt this.2⟩
  · intro h hh
    dsimp only
    rcases hsub h hh with e | e
    · rw [e]; exact Nat.lt_succ_self _
    · exact Nat.lt_succ_of_lt (hI.inUse_lt h e)
  · intro h hh
    exact Nat.lt_succ_of_lt (hI.spawned_lt h hh)
  · intro h hk hs
    have hlt := hI.spawned_lt h hs
    dsimp only at hk
    rw [hold h hlt] at hk
    have := hI.spawned_free h hk hs
    refine ⟨?_, this.2⟩
    intro hh
    rcases hsub h hh with e | e
    · rw [e] at hlt; exact absurd hlt (Nat.lt_irrefl _)
    · exact this.1 e
  · intro h hk hh hn
    dsimp only at hk hh
    rcases hsub h hh with e | e
    · subst e
      rcases hin with e1 | e1
      · rw [e1] at hh; exact absurd hh hfresh
      · show List.count σ.w.next inUse ≤ 1
        rw [e1, List.count_cons_self, List.count_eq_zero_of_not_mem hfresh]
    · have hlt := hI.inUse_lt h e
      rw [hold h hlt] at hk
      have := hI.single h hk e hn
      show List.count h inUse ≤ 1
      rcases hin with e1 | e1
      · rw [e1]; exact this
      · rw [e1, List.count_cons_of_ne (Nat.ne_of_lt hlt)]; exact this
  · intro h hlt hk hs
    dsimp only at hlt hk hs
    by_cases e : h = σ.w.next
    · subst e
      rw [Function.update_same] at hs
      exact absurd hs hst
    · have hlt1 : h < σ.w.next := Nat.lt_of_le_of_ne (Nat.lt_succ_iff.mp hlt) e
      rw [hold h hlt1] at hk hs
      have := hI.unmounted_free h hlt1 hk hs
      refine ⟨?_, this.2⟩
      intro hh
      rcases hsub h hh with e1 | e1
      · exact e e1
      · exact this.1 e1

theorem World.Return_cases (w : World) (mh : Ptr) :
    w.Return mh = w ∨
    ((w.heap mh).status = MountStatusMounted ∧ w.getCache (w.heap mh).GetKey = none ∧
      w.Return mh = { w with mm := { w.mm with m := mapSet w.mm.m (w.heap mh).GetKey mh } }) ∨
    ((w.heap mh).status = MountStatusMounted ∧
      ∃ prev, w.getCache (w.heap mh).GetKey = some prev ∧
        (w.heap prev).mountPath ≠ (w.heap mh).mountPath ∧
        w.Return mh = { w with spawned := w.spawned ++ [mh] }) := by
  unfold World.Return
  by_cases hs : (w.heap mh).status = MountStatusMounted
  · simp only [MountHandler.GetStatus, hs, ne_eq, not_true_eq_false, ↓reduceIte]
    cases hc : w.getCache (w.heap mh).GetKey with
    | none => exact Or.inr (Or.inl ⟨trivial, rfl, rfl⟩)
    | some prev =>
      by_cases hp : (w.heap prev).mountPath = (w.heap mh).mountPath
      · left
        simp [MountHandler.GetMountPath, hp]
      · right; right
        refine ⟨trivial, prev, rfl, hp, ?_⟩
        simp [MountHandler.GetMountPath, hp]
  · left
    simp [MountHandler.GetStatus, hs]

/-- Giving a held handler back without touching the world keeps the invariant. -/
theorem Sys.Inv_erase (prov k : String) (σ : Sys) (hI : σ.Inv prov k) (mh : Ptr) :
    Sys.Inv prov k { w := σ.w, inUse := σ.inUse.erase mh } := by
  refine ⟨hI.prov_eq, hI.keyed, ?_, hI.spawned_lt, ?_, ?_, ?_⟩
  · intro h hh
    exact hI.inUse_lt h (List.mem_of_mem_erase hh)
  · intro h hk hs
    have := hI.spawned_free h hk hs
    exact ⟨fun hh => this.1 (List.mem_of_mem_erase hh), this.2⟩
  · intro h hk hh hn
    have := hI.single h hk (List.mem_of_mem_erase hh) hn
    exact Nat.le_trans ((List.erase_sublist mh σ.inUse).count_le h) this
  · intro h hlt hk hs
    have := hI.unmounted_free h hlt hk hs
    exact ⟨fun hh => this.1 (List.mem_of_mem_erase hh), this.2⟩

/-- Publishing a held Mounted handler under its absent key keeps the
invariant. -/
theorem Sys.Inv_publish (prov k : String) (σ : Sys) (hI : σ.Inv prov k) (mh : Ptr)
    (hin : mh ∈ σ.inUse) (hst : (σ.w.heap mh).status = MountStatusMounted)
    (hc : σ.w.getCache (σ.w.heap mh).GetKey = none) :
    Sys.Inv prov k
      { w := { σ.w with mm := { σ.w.mm with m := mapSet σ.w.mm.m (σ.w.heap mh).GetKey mh } },
        inUse := σ.inUse.erase mh } := by
  have hget : ∀ k1, mapGet (mapSet σ.w.mm.m (σ.w.heap mh).GetKey mh) k1
      = if k1 = (σ.w.heap mh).GetKey then some mh else σ.w.getCache k1 :=
    fun k1 => mapGet_mapSet _ _ _ _
  have hcase : ∀ h, h ≠ mh → σ.w.getCache k ≠ some h →
      mapGet (mapSet σ.w.mm.m (σ.w.heap mh).GetKey mh) k ≠ some h := by
    intro h hne hn
    rw [hget]
    split
    · intro he
      exact hne (Option.some.inj he).symm
    · exact hn
  refine ⟨hI.prov_eq, ?_, ?_, hI.spawned_lt, ?_, ?_, ?_⟩
  · intro k1 p hp
    dsimp only at hp ⊢
    unfold mapSet at hp
    rcases List.mem_cons.mp hp with e | e
    · have e1 : k1 = (σ.w.heap mh).GetKey := congrArg Prod.fst e
      have e2 : p = mh := congrArg Prod.snd e
      rw [e1, e2]
      exact ⟨rfl, hI.inUse_lt mh hin⟩
    · exact hI.keyed k1 p ((mem_mapDelete _ _ _).mp e).1
  · intro h hh
    exact hI.inUse_lt h (List.mem_of_mem_erase hh)
  · intro h hk hs
    have := hI.spawned_free h hk hs
    refine ⟨fun hh => this.1 (List.mem_of_mem_erase hh), ?_⟩
    exact hcase h (fun he => this.1 (he ▸ hin)) this.2
  · intro h hk hh hn
    have hmem := List.mem_of_mem_erase hh
    have hn1 : σ.w.getCache k ≠ some h := by
      intro he
      apply hn
      show mapGet (mapSet σ.w.mm.m (σ.w.heap mh).GetKey mh) k = some h
      rw [hget]
      split
      · rename_i hkk
        rw [hkk, hc] at he
        exact absurd he (by simp)
      · exact he
    have := hI.single h hk hmem hn1
    exact Nat.le_trans ((List.erase_sublist mh σ.inUse).count_le h) this
  · intro h hlt hk hs
    have := hI.unmounted_free h hlt hk hs
    refine ⟨fun hh => this.1 (List.mem_of_mem_erase hh), ?_⟩
    apply hcase h ?_ this.2
    intro he
    dsimp only at hs
    rw [he, hst] at hs
    exact absurd hs (by decide)

/-- Scheduling a held handler for unmount because the table holds another
handler under its key keeps the invariant. -/
theorem Sys.Inv_teardown (prov k : String) (σ : Sys) (hI : σ.Inv prov k) (mh prev : Ptr)
    (hin : mh ∈ σ.inUse) (hc : σ.w.getCache (σ.w.heap mh).GetKey = some prev)
    (hp : (σ.w.heap prev).mountPath ≠ (σ.w.heap mh).mountPath) :
    Sys.Inv prov k
      { w := { σ.w with spawned := σ.w.spawned ++ [mh] }, inUse := σ.inUse.erase mh } := by
  have hE := Sys.Inv_erase prov k σ hI mh
  have hne : prev ≠ mh := fun he => hp (by rw [he])
  refine ⟨hI.prov_eq, hI.keyed, hE.inUse_lt, ?_, ?_, hE.single, hE.unmounted_free⟩
  · intro h hh
    dsimp only at hh ⊢
    rcases List.mem_append.mp hh with e | e
    · exact hI.spawned_lt h e
    · rw [List.mem_singleton.mp e]
      exact hI.inUse_lt mh hin
  · intro h hk hh
    dsimp only at hh hk
    rcases List.mem_append.mp hh with e | e
    · exact hE.spawned_free h hk e
    · have he : h = mh := List.mem_singleton.mp e
      subst he
      have hn : σ.w.getCache k ≠ some h := by
        rw [← hk, hc]
        intro h1
        exact hne (Option.some.inj h1)
      refine ⟨?_, hn⟩
      have hcount := hI.single h hk hin hn
      intro hmem
      have h1 : List.count h (σ.inUse.erase h) = List.count h σ.inUse - 1 :=
        List.count_erase_self h σ.inUse
      have h2 : 0 < List.count h (σ.inUse.erase h) := List.count_pos_iff.mpr hmem
      omega

/-- A sweep whose classes still yield the key keeps the invariant. -/
theorem Sys.Inv_sweep (prov k : String) (σ : Sys) (hI : σ.Inv prov k)
    (curClasses : List StorageClass) (hl : liveKey prov curClasses k = true) :
    Sys.Inv prov k { w := σ.w.CleanUp curClasses, inUse := σ.inUse } := by
  have hw : σ.w.KeyedByHandler := fun k1 p hp => (hI.keyed k1 p hp).1
  have hl1 : liveKey σ.w.mm.provisioner curClasses k = true := by rw [hI.prov_eq]; exact hl
  have hget : (σ.w.CleanUp curClasses).getCache k = σ.w.getCache k :=
    getCache_CleanUp σ.w curClasses hw k hl1
  have hdel : ∀ p, p ∈ (σ.w.delEntries (World.scMap σ.w.mm.provisioner curClasses)).map Prod.snd →
      (σ.w.heap p).GetKey ≠ k ∧ p < σ.w.next := by
    intro p hp
    rw [List.mem_map] at hp
    obtain ⟨⟨k1, p1⟩, hm, rfl⟩ := hp
    have h1 := (mem_delEntries_iff σ.w curClasses hw k1 p1).mp hm
    have h2 := hI.keyed k1 p1 h1.1
    refine ⟨?_, h2.2⟩
    intro he
    dsimp only at he
    rw [h2.1] at he
    rw [he, hl1] at h1
    exact absurd h1.2 (by decide)
  have hsp : ∀ h, h ∈ (σ.w.CleanUp curClasses).spawned →
      h ∈ σ.w.spawned ∨
        h ∈ (σ.w.delEntries (World.scMap σ.w.mm.provisioner curClasses)).map Prod.snd := by
    intro h hh
    exact List.mem_append.mp hh
  refine ⟨hI.prov_eq, ?_, hI.inUse_lt, ?_, ?_, ?_, ?_⟩
  · intro k1 p hp
    exact hI.keyed k1 p ((mem_CleanUp_iff σ.w curClasses hw k1 p).mp hp).1
  · intro h hh
    rcases hsp h hh with e | e
    · exact hI.spawned_lt h e
    · exact (hdel h e).2
  · intro h hk hh
    dsimp only
    rw [hget]
    rcases hsp h hh with e | e
    · exact hI.spawned_free h hk e
    · exact absurd hk (hdel h e).1
  · intro h hk hh hn
    dsimp only at hn
    rw [hget] at hn
    exact hI.single h hk hh hn
  · intro h hlt hk hs
    dsimp only
    rw [hget]
    exact hI.unmounted_free h hlt hk hs

/-- Running a scheduled unmount keeps the invariant. -/
theorem Sys.Inv_unmount (prov k : String) (σ : Sys) (hI : σ.Inv prov k) (mh : Ptr)
    (s : UnmountScript) (hin : mh ∈ σ.w.spawned) :
    Sys.Inv prov k
      { w := { σ.w.releaseHandler mh s with spawned := σ.w.spawned.erase mh },
        inUse := σ.inUse } := by
  have hkey : ∀ h, ((σ.w.releaseHandler mh s).heap h).GetKey = (σ.w.heap h).GetKey := by
    intro h
    unfold World.releaseHandler
    dsimp only
    by_cases he : h = mh
    · rw [he, Function.update_same, MountHandler.GetKey_Unmount]
    · rw [Function.update_noteq he]
  have hstat : ∀ h, h ≠ mh → (σ.w.releaseHandler mh s).heap h = σ.w.heap h := by
    intro h he
    unfold World.releaseHandler
    dsimp only
    rw [Function.update_noteq he]
  refine ⟨hI.prov_eq, ?_, hI.inUse_lt, ?_, ?_, ?_, ?_⟩
  · intro k1 p hp
    have := hI.keyed k1 p hp
    dsimp only
    rw [hkey]
    exact this
  · intro h hh
    exact hI.spawned_lt h (List.mem_of_mem_erase hh)
  · intro h hk hh
    dsimp only at hk
    rw [hkey] at hk
    exact hI.spawned_free h hk (List.mem_of_mem_erase hh)
  · intro h hk hh hn
    dsimp only at hk
    rw [hkey] at hk
    exact hI.single h hk hh hn
  · intro h hlt hk hs
    dsimp only at hk hs
    rw [hkey] at hk
    by_cases he : h = mh
    · rw [he] at hk ⊢
      exact hI.spawned_free mh hk hin
    · rw [hstat h he] at hs
      exact hI.unmounted_free h hlt hk hs

/-- A sweep whose classes no longer yield the key keeps the invariant when
no request holds a handler of the key: the entries of the key leave the
table and are scheduled for unmount. -/
theorem Sys.Inv_sweep_dead (prov k : String) (σ : Sys) (hI : σ.Inv prov k)
    (curClasses : List StorageClass) (hl : liveKey prov curClasses k = false)
    (hfree : σ.holdsKey k = false) :
    Sys.Inv prov k { w := σ.w.CleanUp curClasses, inUse := σ.inUse } := by
  have hw : σ.w.KeyedByHandler := fun k1 p hp => (hI.keyed k1 p hp).1
  have hl1 : liveKey σ.w.mm.provisioner curClasses k = false := by rw [hI.prov_eq]; exact hl
  have hnone : ∀ h, (σ.w.heap h).GetKey = k → h ∉ σ.inUse := by
    intro h hk hin
    have : σ.holdsKey k = true := by
      unfold Sys.holdsKey
      rw [List.any_eq_true]
      exact ⟨h, hin, by simpa using hk⟩
    rw [hfree] at this
    exact absurd this (by decide)
  have hget : (σ.w.CleanUp curClasses).getCache k = none := by
    cases hc : (σ.w.CleanUp curClasses).getCache k with
    | none => rfl
    | some p =>
      have hm := mapGet_some_mem _ _ _ hc
      have := ((mem_CleanUp_iff σ.w curClasses hw k p).mp hm).2
      rw [hl1] at this
      exact absurd this (by decide)
  have hsp : ∀ h, h ∈ (σ.w.CleanUp curClasses).spawned → h < σ.w.next := by
    intro h hh
    rcases List.mem_append.mp hh with e | e
    · exact hI.spawned_lt h e
    · rw [List.mem_map] at e
      obtain ⟨⟨k1, p1⟩, hm, rfl⟩ := e
      exact (hI.keyed k1 p1 ((mem_delEntries_iff σ.w curClasses hw k1 p1).mp hm).1).2
  refine ⟨hI.prov_eq, ?_, hI.inUse_lt, hsp, ?_, ?_, ?_⟩
  · intro k1 p hp
    exact hI.keyed k1 p ((mem_CleanUp_iff σ.w curClasses hw k1 p).mp hp).1
  · intro h hk _
    dsimp only
    rw [hget]
    exact ⟨hnone h hk, by simp⟩
  · intro h hk hh _
    exact absurd hh (hnone h hk)
  · intro h _ hk _
    dsimp only
    rw [hget]
    exact ⟨hnone h hk, by simp⟩

/-- Every step keeps the invariant, provided a sweep that runs while a
handler of the key is held still yields the key. -/
theorem Sys.Inv_step (prov k : String) (σ σ1 : Sys) (st : Step) (hI : σ.Inv prov k)
    (hlive : ∀ cs, st = Step.sweep cs → σ.holdsKey k = true → liveKey prov cs k = true)
    (hs : σ.step st = some σ1) : σ1.Inv prov k := by
  cases st with
  | resolve server exportPath entropy s =>
    unfold Sys.step at hs
    unfold World.GetByPath at hs
    cases hchk : nfsPathCheck server exportPath with
    | some e =>
      simp only [hchk, Option.some.injEq] at hs
      rw [← hs]
      exact hI
    | none =>
      cases hget : σ.w.getCache (makeNfsPathKey server exportPath) with
      | some mh =>
        simp only [hchk, hget, Option.some.injEq] at hs
        rw [← hs]
        exact Sys.Inv_hit prov k σ hI _ mh hget
      | none =>
        have hst := MountHandler.status_Mount_New (NewMountHandler server exportPath)
          σ.w.mm.mountBase σ.w.mm.DefaultMountOpts (NewUUID entropy) s rfl
        cases herr : ((NewMountHandler server exportPath).Mount σ.w.mm.mountBase
            σ.w.mm.DefaultMountOpts (NewUUID entropy) s).2.1 with
        | some e =>
          simp only [hchk, hget, herr, Option.some.injEq] at hs
          rw [← hs]
          exact Sys.Inv_miss prov k σ hI _ _ _ hst (Or.inl rfl)
        | none =>
          simp only [hchk, hget, herr, Option.some.injEq] at hs
          rw [← hs]
          exact Sys.Inv_miss prov k σ hI _ _ _ hst (Or.inr rfl)
  | release mh =>
    unfold Sys.step at hs
    by_cases hin : mh ∈ σ.inUse
    · simp only [hin, ↓reduceIte, Option.some.injEq] at hs
      rw [← hs]
      rcases World.Return_cases σ.w mh with h | ⟨h1, h2, h3⟩ | ⟨_, prev, h2, h3, h4⟩
      · rw [h]
        exact Sys.Inv_erase prov k σ hI mh
      · rw [h3]
        exact Sys.Inv_publish prov k σ hI mh hin h1 h2
      · rw [h4]
        exact Sys.Inv_teardown prov k σ hI mh prev hin h2 h3
    · simp [hin] at hs
  | sweep curClasses =>
    unfold Sys.step at hs
    simp only [Option.some.injEq] at hs
    rw [← hs]
    cases hl : liveKey prov curClasses k with
    | true => exact Sys.Inv_sweep prov k σ hI curClasses hl
    | false =>
      cases hh : σ.holdsKey k with
      | false => exact Sys.Inv_sweep_dead prov k σ hI curClasses hl hh
      | true =>
        have := hlive curClasses rfl hh
        rw [hl] at this
        exact absurd this (by decide)
  | unmount mh s =>
    unfold Sys.step at hs
    by_cases hin : mh ∈ σ.w.spawned
    · simp only [hin, ↓reduceIte, Option.some.injEq] at hs
      rw [← hs]
      exact Sys.Inv_unmount prov k σ hI mh s hin
    · simp [hin] at hs

theorem Sys.Inv_run (prov k : String) (steps : List Step) (σ σ1 : Sys) (hI : σ.Inv prov k)
    (hlive : σ.sweepsKeep k steps = true)
    (hr : σ.run steps = some σ1) : σ1.Inv prov k := by
  induction steps generalizing σ with
  | nil =>
    simp only [Sys.run, Option.some.injEq] at hr
    rw [← hr]
    exact hI
  | cons st rest ih =>
    unfold Sys.run at hr
    cases hstep : σ.step st with
    | none => simp [hstep] at hr
    | some σ2 =>
      simp only [hstep] at hr
      unfold Sys.sweepsKeep at hlive
      simp only [hstep, Bool.and_eq_true] at hlive
      have h2 := Sys.Inv_step prov k σ σ2 st hI
        (by
          intro cs he hh
          have h1 := hlive.1
          rw [he] at h1
          simp only [hh, Bool.not_true, Bool.false_or] at h1
          rw [← hI.prov_eq]
          exact h1) hstep
      exact ih σ2 h2 hlive.2 hr

/-- In a state that satisfies the invariant, no step changes a handler that
is held and is not scheduled for unmount. -/
theorem Sys.step_heap_eq (σ σ1 : Sys) (st : Step) (h : Ptr) (hlt : h < σ.w.next)
    (hns : h ∉ σ.w.spawned) (hs : σ.step st = some σ1) : σ1.w.heap h = σ.w.heap h := by
  cases st with
  | resolve server exportPath entropy s =>
    unfold Sys.step at hs
    unfold World.GetByPath at hs
    cases hchk : nfsPathCheck server exportPath with
    | some e =>
      simp only [hchk, Option.some.injEq] at hs
      rw [← hs]
    | none =>
      cases hget : σ.w.getCache (makeNfsPathKey server exportPath) with
      | some mh =>
        simp only [hchk, hget, Option.some.injEq] at hs
        rw [← hs]
      | none =>
        cases herr : ((NewMountHandler server exportPath).Mount σ.w.mm.mountBase
            σ.w.mm.DefaultMountOpts (NewUUID entropy) s).2.1 with
        | some e =>
          simp only [hchk, hget, herr, Option.some.injEq] at hs
          rw [← hs]
          exact Function.update_noteq (Nat.ne_of_lt hlt) _ _
        | none =>
          simp only [hchk, hget, herr, Option.some.injEq] at hs
          rw [← hs]
          exact Function.update_noteq (Nat.ne_of_lt hlt) _ _
  | release mh =>
    unfold Sys.step at hs
    by_cases hin : mh ∈ σ.inUse
    · simp only [hin, ↓reduceIte, Option.some.injEq] at hs
      rw [← hs]
      rcases World.Return_cases σ.w mh with h1 | ⟨_, _, h3⟩ | ⟨_, prev, _, _, h4⟩
      · rw [h1]
      · rw [h3]
      · rw [h4]
    · simp [hin] at hs
  | sweep curClasses =>
    unfold Sys.step at hs
    simp only [Option.some.injEq] at hs
    rw [← hs]
    rfl
  | unmount mh s =>
    unfold Sys.step at hs
    by_cases hin : mh ∈ σ.w.spawned
    · simp only [hin, ↓reduceIte, Option.some.injEq] at hs
      rw [← hs]
      have hne : h ≠ mh := fun he => hns (he ▸ hin)
      unfold World.releaseHandler
      exact Function.update_noteq hne _ _
    · simp [hin] at hs

/-- C3, counterexample: after `heldRun` the handler 0 is held by a request
and Mounted.  A sweep with an empty class list evicts it and schedules its
unmount, and the unmount then takes it to Unmounted while the request still
holds it. -/
theorem inUse_unmounted_by_sweep :
    (((Sys.init "nfs" "/mnt" []).run heldRun).map
        (fun σ => (σ.inUse, (σ.w.heap 0).status, σ.w.spawned)))
      = some ([0], MountStatusMounted, []) ∧
    (((Sys.init "nfs" "/mnt" []).run (heldRun ++ [.sweep []])).map
        (fun σ => (σ.inUse, (σ.w.heap 0).status, σ.w.spawned, σ.w.mm.m)))
      = some ([0], MountStatusMounted, [0], []) ∧
    (((Sys.init "nfs" "/mnt" []).run (heldRun ++ [.sweep [], .unmount 0 ⟨none, true⟩])).map
        (fun σ => (σ.inUse, (σ.w.heap 0).status)))
      = some ([0], MountStatusUnmounted) := by
  decide

/-- C3, amended: along every run in which every sweep that runs while some
request holds a handler of the key `k` still finds `k` among the keys of its
classes, a handler of `k` that a request holds (returned by `GetByPath`, not
yet given to `Return`) is not scheduled for unmount, is not Unmounted, and
is left as it is by every step that can follow: neither a sweep nor a
duplicate teardown unmounts it.  Sweeps that run while no handler of `k` is
held are free to drop `k`. -/
theorem inUse_not_unmounted_while_live (prov base : String) (opts : List String) (k : String)
    (steps : List Step) (σ : Sys)
    (hlive : (Sys.init prov base opts).sweepsKeep k steps = true)
    (hrun : (Sys.init prov base opts).run steps = some σ)
    (h : Ptr) (hin : h ∈ σ.inUse) (hk : (σ.w.heap h).GetKey = k) :
    h ∉ σ.w.spawned ∧ (σ.w.heap h).status ≠ MountStatusUnmounted ∧
      ∀ st σ1, σ.step st = some σ1 → σ1.w.heap h = σ.w.heap h := by
  have hI := Sys.Inv_run prov k steps _ σ (Sys.Inv_init prov base k opts) hlive hrun
  have hlt := hI.inUse_lt h hin
  have hns : h ∉ σ.w.spawned := fun hs => (hI.spawned_free h hk hs).1 hin
  refine ⟨hns, ?_, ?_⟩
  · intro hs
    exact (hI.unmounted_free h hlt hk hs).1 hin
  · intro st σ1 hstep
    exact Sys.step_heap_eq σ σ1 st h hlt hns hstep

/-- C3, witness: a sweep with no class at all before the export is ever
mounted, then `heldRun`, then a sweep whose classes name the export while the
handler 0 is held; the handler is neither scheduled nor Unmounted. -/
theorem inUse_not_unmounted_while_live_witness :
    (Sys.init "nfs" "/mnt" []).sweepsKeep "10.0.0.1:/export"
        ([.sweep []] ++ heldRun ++ [.sweep [exportClass]]) = true ∧
    0 ∈ (((Sys.init "nfs" "/mnt" []).run
        ([.sweep []] ++ heldRun ++ [.sweep [exportClass]])).getD
        (Sys.init "nfs" "/mnt" [])).inUse ∧
    0 ∉ (((Sys.init "nfs" "/mnt" []).run
        ([.sweep []] ++ heldRun ++ [.sweep [exportClass]])).getD
        (Sys.init "nfs" "/mnt" [])).w.spawned ∧
    ((((Sys.init "nfs" "/mnt" []).run
        ([.sweep []] ++ heldRun ++ [.sweep [exportClass]])).getD
        (Sys.init "nfs" "/mnt" [])).w.heap 0).status ≠ MountStatusUnmounted :=
  ⟨by decide, by decide,
   (inUse_not_unmounted_while_live "nfs" "/mnt" [] "10.0.0.1:/export"
      ([.sweep []] ++ heldRun ++ [.sweep [exportClass]]) _
      (by decide) (by rfl) 0 (by decide) (by decide)).1,
   (inUse_not_unmounted_while_live "nfs" "/mnt" [] "10.0.0.1:/export"
      ([.sweep []] ++ heldRun ++ [.sweep [exportClass]]) _
      (by decide) (by rfl) 0 (by decide) (by decide)).2.1⟩

end NfsProvision
